import Mathlib

/-!
Verification development for the ftlogic core: signatures, parse trees, the
recursive-descent parser, interpretations, knowledge bases, and the
tree-walking evaluator. Each definition is a shallow embedding of the
corresponding Python entity in src/ftlogic; symbols and formula texts are
modelled as lists of characters, Python dictionaries as association lists
with first-match lookup, tensors as finite batches (lists) of scalar values,
raised exceptions as the error case of Except, and the call-stack depth of
the two recursive procedures (the parser and the evaluator) as an explicit
fuel argument that is structurally consumed.
-/

namespace FTL

/-! Association-list model of Python dictionaries. Lookup is first match
(keys are unique in any dictionary the source builds); dictSet models
item assignment d[k] = v (overwrite in place, else append at the end);
dictUpdate models d.update(s) (items of s assigned in order). -/

/-- Lookup of a key in a dictionary, modelling the Python expression d[k]
(returning none where Python would raise KeyError). -/
def dictLookup {β : Type} (d : List (List Char × β)) (k : List Char) : Option β :=
  match d with
  | [] => none
  | p :: rest => if p.1 = k then some p.2 else dictLookup rest k

/-- Membership test of a key, modelling the Python expression k in d. -/
def dictContains {β : Type} (d : List (List Char × β)) (k : List Char) : Bool :=
  d.any (fun p => decide (p.1 = k))

/-- Item assignment, modelling d[k] = v on a Python dict. -/
def dictSet {β : Type} (d : List (List Char × β)) (k : List Char) (v : β) :
    List (List Char × β) :=
  if d.any (fun p => decide (p.1 = k)) then
    d.map (fun p => if p.1 = k then (k, v) else p)
  else d ++ [(k, v)]

/-- Modelling d.update(s) on Python dicts: assign every item of s in order. -/
def dictUpdate {β : Type} (d s : List (List Char × β)) : List (List Char × β) :=
  s.foldl (fun acc p => dictSet acc p.1 p.2) d

/-- First-some choice on options, used to state lookup overlay facts. -/
def orElseOpt {β : Type} (a b : Option β) : Option β :=
  match a with
  | some v => some v
  | none => b

theorem dictContains_eq_isSome {β : Type} (d : List (List Char × β))
    (k : List Char) : dictContains d k = (dictLookup d k).isSome := by
  induction d with
  | nil => simp [dictContains, dictLookup]
  | cons p rest ih =>
    by_cases h : p.1 = k <;>
      simp [dictContains, dictLookup, h, ← ih, List.any_cons]

theorem dictLookup_append {β : Type} (d e : List (List Char × β)) (k : List Char) :
    dictLookup (d ++ e) k = orElseOpt (dictLookup d k) (dictLookup e k) := by
  induction d with
  | nil => simp [dictLookup, orElseOpt]
  | cons p rest ih =>
    by_cases h : p.1 = k <;> simp [dictLookup, orElseOpt, h, ih]

theorem dictLookup_eq_none_of_notMem {β : Type} (d : List (List Char × β))
    (x : List Char) (hx : x ∉ d.map Prod.fst) : dictLookup d x = none := by
  induction d with
  | nil => rfl
  | cons p rest ih =>
    have h1 : p.1 ≠ x := fun h =>
      hx (h ▸ List.mem_map_of_mem Prod.fst (List.mem_cons_self p rest))
    have h2 : x ∉ rest.map Prod.fst := fun h =>
      hx (by rw [List.map_cons]; exact List.mem_cons_of_mem _ h)
    simp [dictLookup, h1, ih h2]

theorem lookup_dictSet {β : Type} (d : List (List Char × β)) (k : List Char)
    (v : β) (x : List Char) :
    dictLookup (dictSet d k v) x = if x = k then some v else dictLookup d x := by
  by_cases hmem : d.any (fun p => decide (p.1 = k)) = true
  · have hsome : (dictLookup d k).isSome = true := by
      rw [← dictContains_eq_isSome]
      exact hmem
    rw [dictSet, if_pos hmem]
    by_cases hxk : x = k
    · obtain ⟨w, hw⟩ := Option.isSome_iff_exists.mp hsome
      rw [if_pos hxk, hxk]
      clear hxk hmem hsome x
      revert hw
      induction d with
      | nil => intro hw; exact absurd hw (by simp [dictLookup])
      | cons p rest ih =>
        intro hw
        by_cases hpk : p.1 = k
        · simp [dictLookup, hpk]
        · have hrw : dictLookup rest k = some w := by
            rw [← hw]
            simp [dictLookup, hpk]
          simp [dictLookup, hpk, ih hrw]
    · rw [if_neg hxk]
      clear hmem hsome
      induction d with
      | nil => rfl
      | cons p rest ih =>
        by_cases hpk : p.1 = k
        · have hkx : k ≠ x := fun h => hxk h.symm
          simp [dictLookup, hpk, hkx]
          exact ih
        · by_cases hp1x : p.1 = x
          · simp [dictLookup, hpk, hp1x, hxk]
          · simp [dictLookup, hpk, hp1x]
            exact ih
  · have hnone : dictLookup d k = none := by
      have hc := dictContains_eq_isSome d k
      rw [dictContains] at hc
      rw [Bool.not_eq_true] at hmem
      rw [hmem] at hc
      exact Option.not_isSome_iff_eq_none.mp (by rw [← hc]; simp)
    rw [dictSet, if_neg hmem, dictLookup_append]
    by_cases hxk : x = k
    · rw [hxk, hnone]
      simp [dictLookup, orElseOpt]
    · cases hd : dictLookup d x with
      | some w => simp [hd, hxk, orElseOpt]
      | none =>
        have hkx : k ≠ x := fun h => hxk h.symm
        simp [hd, hxk, dictLookup, orElseOpt, hkx]

theorem lookup_dictUpdate {β : Type} (d s : List (List Char × β))
    (hs : (s.map Prod.fst).Nodup) (x : List Char) :
    dictLookup (dictUpdate d s) x =
      orElseOpt (dictLookup s x) (dictLookup d x) := by
  induction s generalizing d with
  | nil => simp [dictUpdate, dictLookup, orElseOpt]
  | cons p rest ih =>
    have hnd : (rest.map Prod.fst).Nodup := (List.nodup_cons.mp hs).2
    have hnotin : p.1 ∉ rest.map Prod.fst := (List.nodup_cons.mp hs).1
    have step : dictUpdate d (p :: rest) = dictUpdate (dictSet d p.1 p.2) rest := rfl
    rw [step, ih (dictSet d p.1 p.2) hnd]
    by_cases hxp : x = p.1
    · have hrest : dictLookup rest x = none :=
        dictLookup_eq_none_of_notMem rest x (by rw [hxp]; exact hnotin)
      rw [hrest]
      show orElseOpt none (dictLookup (dictSet d p.1 p.2) x) = _
      rw [lookup_dictSet, if_pos hxp]
      simp [dictLookup, orElseOpt, hxp.symm]
    · have hp1x : p.1 ≠ x := fun h => hxp h.symm
      rw [lookup_dictSet, if_neg hxp]
      simp only [dictLookup, orElseOpt, if_neg hp1x]

/-! The data model: node types, node values, signatures and parse trees,
mirroring NodeType, ParseTree and Signature of the source. A node value is
either a plain symbol string (TreeVal.sym) or the two-element list
[variable, domain] carried by quantifier nodes (TreeVal.pair). Children are
an ordered list, realised as the mutual inductive ParseTreeList so that the
tree-walking queries can be defined by structural recursion. -/

/-- Enumerates all possible types of nodes of a parse tree. -/
inductive NodeType where
  | UNIVERSAL
  | EXISTENTIAL
  | IMPLICATION
  | DISJUNCTION
  | CONJUNCTION
  | NEGATION
  | PREDICATE
  | VARIABLE
  | CONSTANT
  | BRACKET
  | FUNCTOR
deriving DecidableEq

/-- Value stored at a parse tree node: a symbol string, or the pair
[variable, domain] of a quantifier node. -/
inductive TreeVal where
  | sym : List Char → TreeVal
  | pair : List Char → List Char → TreeVal
deriving DecidableEq

/-- Python value[0]: first component of a quantifier pair; on a plain string
the Python expression returns its first character (as a 1-character string),
modelled by take 1. -/
def TreeVal.fst : TreeVal → List Char
  | .pair x _ => x
  | .sym s => s.take 1

/-- Python value[1]: second component of a quantifier pair; on a plain string
the Python expression returns its second character. -/
def TreeVal.snd : TreeVal → List Char
  | .pair _ d => d
  | .sym s => (s.drop 1).take 1

/-- Stores predicate, functor, and constant symbols alongside their arities.
Equality is structural over the three collections, as in the source. -/
structure Signature where
  predicates : List (List Char × Nat)
  functors : List (List Char × Nat)
  constants : List (List Char)
deriving DecidableEq

/-- Membership of a symbol in a signature (the source Signature.__contains__):
true iff the symbol is a predicate, functor, or constant name. -/
def Signature.mem (sig : Signature) (s : List Char) : Bool :=
  dictContains sig.predicates s || dictContains sig.functors s ||
    sig.constants.any (fun c => decide (c = s))

mutual
/-- A parse tree node: value, type, ordered children, and the signature the
expression was parsed against. -/
inductive ParseTree where
  | mk : TreeVal → NodeType → ParseTreeList → Signature → ParseTree
/-- An ordered list of child parse trees. -/
inductive ParseTreeList where
  | nil : ParseTreeList
  | cons : ParseTree → ParseTreeList → ParseTreeList
end

def ParseTree.value : ParseTree → TreeVal
  | .mk v _ _ _ => v

def ParseTree.type : ParseTree → NodeType
  | .mk _ ty _ _ => ty

def ParseTree.children : ParseTree → ParseTreeList
  | .mk _ _ cs _ => cs

def ParseTree.signature : ParseTree → Signature
  | .mk _ _ _ sig => sig

def ParseTreeList.toList : ParseTreeList → List ParseTree
  | .nil => []
  | .cons t ts => t :: ParseTreeList.toList ts

def ParseTreeList.ofList : List ParseTree → ParseTreeList
  | [] => .nil
  | t :: ts => .cons t (ParseTreeList.ofList ts)

/-- True if the parse tree represents an FTL formula. -/
def ParseTree.isFormula (t : ParseTree) : Bool :=
  match t.type with
  | .CONJUNCTION => true
  | .DISJUNCTION => true
  | .EXISTENTIAL => true
  | .IMPLICATION => true
  | .UNIVERSAL => true
  | .BRACKET => true
  | .NEGATION => true
  | .PREDICATE => true
  | _ => false

/-- True if the parse tree represents an FTL term. -/
def ParseTree.isTerm (t : ParseTree) : Bool :=
  match t.type with
  | .CONSTANT => true
  | .VARIABLE => true
  | .FUNCTOR => true
  | _ => false

/-- True if the parse tree represents an FTL atom. -/
def ParseTree.isAtom (t : ParseTree) : Bool :=
  match t.type with
  | .PREDICATE => true
  | _ => false

/-- Append every element of new that is not already present (the inner loop
of the source getVariables building its duplicate-free list). -/
def appendNew (vars new : List (List Char)) : List (List Char) :=
  new.foldl (fun acc v => if v ∈ acc then acc else acc ++ [v]) vars

mutual
/-- The source ParseTree.getVariables: list of all variables appearing in
the tree, in order of first appearance, without duplicates; quantifier
nodes additionally contribute their bound variable token. -/
def ParseTree.getVariables : ParseTree → List (List Char)
  | .mk v ty children _ =>
    match ty with
    | .VARIABLE =>
      match v with
      | .sym s => [s]
      | .pair x d => [x ++ d]
    | .CONSTANT => []
    | .UNIVERSAL =>
      let vars := ParseTreeList.collectVariables children []
      if TreeVal.fst v ∈ vars then vars else vars ++ [TreeVal.fst v]
    | .EXISTENTIAL =>
      let vars := ParseTreeList.collectVariables children []
      if TreeVal.fst v ∈ vars then vars else vars ++ [TreeVal.fst v]
    | _ => ParseTreeList.collectVariables children []

/-- The child loop of getVariables: fold the children left to right,
merging each child result into the accumulator without duplicates. -/
def ParseTreeList.collectVariables : ParseTreeList → List (List Char) → List (List Char)
  | .nil, vars => vars
  | .cons t ts, vars =>
    ParseTreeList.collectVariables ts (appendNew vars (ParseTree.getVariables t))
end

mutual
/-- The source ParseTree.getBound. Note the faithful modelling of the
source defect: a quantifier node extends the collected list with the
CHARACTERS of its bound variable token (Python list.extend iterates the
string), each becoming a separate 1-character token. -/
def ParseTree.getBound : ParseTree → List (List Char)
  | .mk v ty children _ =>
    match ty with
    | .CONSTANT => []
    | .VARIABLE => []
    | .FUNCTOR => []
    | .UNIVERSAL =>
      (match children with
        | .cons c _ => ParseTree.getBound c
        | .nil => []) ++ (TreeVal.fst v).map (fun ch => [ch])
    | .EXISTENTIAL =>
      (match children with
        | .cons c _ => ParseTree.getBound c
        | .nil => []) ++ (TreeVal.fst v).map (fun ch => [ch])
    | _ => ParseTreeList.collectBound children

/-- The child loop of getBound: concatenation of the children results. -/
def ParseTreeList.collectBound : ParseTreeList → List (List Char)
  | .nil => []
  | .cons t ts => ParseTree.getBound t ++ ParseTreeList.collectBound ts
end

/-- The source ParseTree.getFree: variables of the tree that do not occur
in the bound list. -/
def ParseTree.getFree (t : ParseTree) : List (List Char) :=
  t.getVariables.filter (fun x => decide (x ∉ t.getBound))


/-! The parser. Formula texts are lists of characters; the source procedure
_parse is recursive on substrings of its input, modelled here by parseFuel,
which consumes one unit of fuel per recursive call (the wrapper parse
supplies length + 1 units, which is always sufficient: every recursive call
is on a strictly shorter text). Node kinds are tried in reverse of the
standard precedence order, exactly as the source does for the standard
configuration: Implication, Disjunction, Conjunction, Negation, Universal,
Existential, Predicate, Functor, Constant, Variable, Bracket. Each helper
returns none to model the continue of the source loop (try the next kind)
and some of a result to model returning or raising. -/

/-- Python str.strip(): remove surrounding whitespace. -/
def stripChars (s : List Char) : List Char :=
  ((s.dropWhile Char.isWhitespace).reverse.dropWhile Char.isWhitespace).reverse

/-- Python str.find(c): index of the first occurrence of a character. -/
def findChar (s : List Char) (c : Char) : Option Nat :=
  match s with
  | [] => none
  | x :: rest => if x = c then some 0 else (findChar rest c).map (fun j => j + 1)

/-- The source _findTopLevel loop: position i, current bracket depth
(decremented, never below zero, on a closing bracket before the match test;
incremented on an opening bracket after it). -/
def findTopLevelAux (key : List Char) : List Char → Nat → Nat → Option Nat
  | [], _, _ => none
  | c :: rest, depth, i =>
    let depth1 := if c = ')' then depth - 1 else depth
    if key.isPrefixOf (c :: rest) && depth1 == 0 then some i
    else
      let depth2 := if c = '(' then depth1 + 1 else depth1
      findTopLevelAux key rest depth2 (i + 1)

/-- The source _findTopLevel: first occurrence of key in s at bracket
depth zero, none where the source returns -1. -/
def findTopLevel (s key : List Char) : Option Nat :=
  findTopLevelAux key s 0 0

/-- The source _splitAtLevel loop over s, with current index i, bracket
depth, start b of the current piece, and pieces accumulated so far.
A piece s[b:i] is cut at each separator occurrence at depth zero; the
final piece s[b:] is appended when the scan ends. -/
def splitAtLevelAux (sep s : List Char) :
    List Char → Nat → Nat → Nat → List (List Char) → List (List Char)
  | [], _, _, b, acc => acc ++ [s.drop b]
  | c :: rest, i, depth, b, acc =>
    if c = '(' then splitAtLevelAux sep s rest (i + 1) (depth + 1) b acc
    else if c = ')' then splitAtLevelAux sep s rest (i + 1) (depth - 1) b acc
    else if depth == 0 && sep.isPrefixOf (c :: rest) then
      splitAtLevelAux sep s rest (i + 1) depth (i + sep.length)
        (acc ++ [(s.drop b).take (i - b)])
    else splitAtLevelAux sep s rest (i + 1) depth b acc

/-- The source _splitAtLevel: split s at occurrences of sep at bracket
depth zero. Always returns at least one piece. -/
def splitAtLevel (s sep : List Char) : List (List Char) :=
  splitAtLevelAux sep s s 0 0 0 []

/-- The source _varSyntaxCheck. The regular-expression condition (a match
of [a-zA-Z]+[a-zA-Z0-9]* whose span is the whole string) holds exactly of
non-empty strings whose first character is an ASCII letter and whose
characters are all ASCII alphanumeric; in addition the token must not be a
symbol of the signature. -/
def varSyntaxCheck (v : List Char) (sig : Signature) : Bool :=
  (match v with
    | [] => false
    | c :: _ => c.isAlpha) &&
  v.all (fun c => c.isAlphanum) && !(sig.mem v)

def implSym : List Char := ['-', ':']

def disjSym : List Char := [';']

def conjSym : List Char := [',']

def negSym : List Char := ['!']

/-- One binary-junctor iteration of the source loop: find the junctor
symbol at top level (else try the next node kind), parse both sides,
require both to be formulas. -/
def tryJunctor (p : List Char → Except String ParseTree) (sig : Signature)
    (ty : NodeType) (sym : List Char) (formula : List Char) :
    Option (Except String ParseTree) :=
  match findTopLevel formula sym with
  | none => none
  | some pos =>
    some (do
      let l ← p (formula.take pos)
      let r ← p (formula.drop (pos + sym.length))
      if !l.isFormula then
        .error ("Attempting a junctor on a non-formula '" ++
          String.mk (formula.take pos) ++ "'.")
      else if !r.isFormula then
        .error ("Attempting a junctor on a non-formula '" ++
          String.mk (formula.drop (pos + 1 + sym.length)) ++ "'.")
      else .ok (.mk (.sym sym) ty (.cons l (.cons r .nil)) sig))

/-- The negation iteration of the source loop: match the negation prefix,
parse the remainder, require a formula. -/
def tryNegation (p : List Char → Except String ParseTree) (sig : Signature)
    (formula : List Char) : Option (Except String ParseTree) :=
  if negSym.isPrefixOf formula then
    some (do
      let child ← p (formula.drop negSym.length)
      if !child.isFormula then
        .error "Attempting to negate a non-formula."
      else .ok (.mk (.sym negSym) .NEGATION (.cons child .nil) sig))
  else none

/-- A quantifier iteration of the source loop for the given leading letter:
variable token up to the tilde, domain token from the tilde to the colon
(both located by str.find over the whole text), both validated by
varSyntaxCheck, then the remainder parsed and required to be a formula. -/
def tryQuantifier (p : List Char → Except String ParseTree) (sig : Signature)
    (ty : NodeType) (letter : Char) (formula : List Char) :
    Option (Except String ParseTree) :=
  if formula.head? = some letter then
    match findChar formula '~' with
    | none => none
    | some varEnd =>
      some (
        let v := (formula.drop 1).take (varEnd - 1)
        if !(varSyntaxCheck v sig) then
          .error ("Quantification has invalid variable '" ++ String.mk v ++ "'.")
        else
          match findChar formula ':' with
          | none => .error "Quantification is missing a colon."
          | some domainEnd =>
            let d := (formula.drop (varEnd + 1)).take (domainEnd - (varEnd + 1))
            if !(varSyntaxCheck d sig) then
              .error ("Quantification has invalid domain '" ++ String.mk d ++ "'.")
            else do
              let child ← p (formula.drop (domainEnd + 1))
              if !child.isFormula then
                .error "Quantification on a non-formula."
              else .ok (.mk (.pair v d) ty (.cons child .nil) sig))
  else none

/-- The argument loop of the predicate/functor iteration: parse each
argument in order and require it to be a term; the first failure aborts. -/
def parseTerms (p : List Char → Except String ParseTree) (formula : List Char) :
    List (List Char) → Except String (List ParseTree)
  | [] => .ok []
  | a :: rest => do
    let pa ← p a
    if !pa.isTerm then
      .error ("Subexpression '" ++ String.mk a ++ "' in '" ++
        String.mk formula ++ "' is not a term.")
    else do
      let ps ← parseTerms p formula rest
      .ok (pa :: ps)

/-- A predicate/functor iteration of the source loop: symbol up to the
first opening bracket, looked up in the relevant arity table (else try the
next node kind); the text between the bracket and the final character is
split at top-level commas, the piece count must equal the declared arity
exactly, and every piece must parse as a term. -/
def tryApplication (p : List Char → Except String ParseTree) (sig : Signature)
    (ty : NodeType) (formula : List Char) : Option (Except String ParseTree) :=
  match findChar formula '(' with
  | none => none
  | some resultIndex =>
    let symbol := formula.take resultIndex
    match (match ty with
            | NodeType.PREDICATE => dictLookup sig.predicates symbol
            | NodeType.FUNCTOR => dictLookup sig.functors symbol
            | _ => none) with
    | none => none
    | some arity =>
      some (
        let argumentsStr := (formula.drop (resultIndex + 1)).dropLast
        let args := splitAtLevel argumentsStr conjSym
        if args.length ≠ arity then
          .error ("Symbol " ++ String.mk symbol ++ " has arity " ++
            toString arity ++ "but received " ++ toString args.length ++
            " arguments in " ++ String.mk formula ++ ".")
        else do
          let children ← parseTerms p formula args
          .ok (.mk (.sym symbol) ty (ParseTreeList.ofList children) sig))

/-- The constant iteration of the source loop: exact membership of the text
in the signature constants. -/
def tryConstant (sig : Signature) (formula : List Char) :
    Option (Except String ParseTree) :=
  if formula ∈ sig.constants then
    some (.ok (.mk (.sym formula) .CONSTANT .nil sig))
  else none

/-- The variable iteration of the source loop: the text must pass the
variable syntax check (and hence not be a signature symbol). -/
def tryVariable (sig : Signature) (formula : List Char) :
    Option (Except String ParseTree) :=
  if varSyntaxCheck formula sig then
    some (.ok (.mk (.sym formula) .VARIABLE .nil sig))
  else none

/-- The bracket iteration of the source loop, tried last: text starting
with an opening bracket must end with a closing one and wrap a formula. -/
def tryBracket (p : List Char → Except String ParseTree) (sig : Signature)
    (formula : List Char) : Option (Except String ParseTree) :=
  if formula.head? = some '(' then
    some (
      if formula.getLast? ≠ some ')' then
        .error ("Unbalanced parenthesise in '" ++ String.mk formula ++ "'.")
      else do
        let child ← p ((formula.drop 1).dropLast)
        if !child.isFormula then
          .error "Parenthesise surrounding a non-formula."
        else .ok (.mk (.sym ['(', ')']) .BRACKET (.cons child .nil) sig))
  else none

/-- The source _parse specialised to the standard precedence order and the
standard junctor symbols, with explicit fuel bounding the recursion depth.
The stripped text is tried as each node kind in reverse precedence order;
every recursive call is on a strictly shorter text and receives one unit
of fuel less. -/
def parseFuel (sig : Signature) : Nat → List Char → Except String ParseTree
  | 0, _ => .error "Parser recursion limit exceeded."
  | n + 1, formula0 =>
    let formula := stripChars formula0
    if formula = [] then .error "Attempting to parse an empty formula."
    else
      match tryJunctor (fun g => parseFuel sig n g) sig .IMPLICATION implSym formula with
      | some r => r
      | none =>
      match tryJunctor (fun g => parseFuel sig n g) sig .DISJUNCTION disjSym formula with
      | some r => r
      | none =>
      match tryJunctor (fun g => parseFuel sig n g) sig .CONJUNCTION conjSym formula with
      | some r => r
      | none =>
      match tryNegation (fun g => parseFuel sig n g) sig formula with
      | some r => r
      | none =>
      match tryQuantifier (fun g => parseFuel sig n g) sig .UNIVERSAL 'A' formula with
      | some r => r
      | none =>
      match tryQuantifier (fun g => parseFuel sig n g) sig .EXISTENTIAL 'E' formula with
      | some r => r
      | none =>
      match tryApplication (fun g => parseFuel sig n g) sig .PREDICATE formula with
      | some r => r
      | none =>
      match tryApplication (fun g => parseFuel sig n g) sig .FUNCTOR formula with
      | some r => r
      | none =>
      match tryConstant sig formula with
      | some r => r
      | none =>
      match tryVariable sig formula with
      | some r => r
      | none =>
      match tryBracket (fun g => parseFuel sig n g) sig formula with
      | some r => r
      | none => .error ("Expression '" ++ String.mk formula ++ "' is an invalid formula.")

/-- The public parse operation: parse the text against the signature (the
supplied fuel, one more than the length of the text, always suffices), and
with onlyFormulas set reject a successfully parsed non-formula. -/
def parse (formula : List Char) (sig : Signature) (onlyFormulas : Bool) :
    Except String ParseTree :=
  match parseFuel sig (formula.length + 1) formula with
  | .error e => .error e
  | .ok t =>
    if onlyFormulas && !t.isFormula then
      .error ("Expression '" ++ String.mk formula ++ "' is not a formula.")
    else .ok t


/-! The evaluator layer. Tensors are modelled as finite batches (lists) of
scalar values of an abstract type; a symbol mapping is either such a batch
(constants, variable and domain bindings) or a function from argument
batches to a batch (predicates and functors), per the documented Structure
data model. tf.concat along axis zero is modelled as list concatenation of
batches (the tensor runtime itself is outside the specified core). -/

/-- Runtime value: a batch of scalars, or a batched function. -/
inductive Val (α : Type) where
  | batch : List α → Val α
  | fn : (List (List α) → List α) → Val α

/-- Coerce a value to a tensor batch; a function where a tensor is needed
models the corresponding Python runtime type error. -/
def Val.asBatch {α : Type} : Val α → Except String (List α)
  | .batch b => .ok b
  | .fn _ => .error "Expected a tensor batch."

/-- A complete collection of fuzzy operators (the source OperatorSet
capability): negation, t-norm, t-conorm, implication, and the universal and
existential aggregators, all operating on batches. -/
structure OperatorSet (α : Type) where
  negation : List α → List α
  tnorm : List α → List α → List α
  tconorm : List α → List α → List α
  implication : List α → List α → List α
  universal : List α → List α
  existential : List α → List α

/-- The source Structure: a signature together with the mappings table. -/
structure Structure (α : Type) where
  signature : Signature
  mappings : List (List Char × Val α)

/-- The source Interpretation: a structure (field struct, since the source
attribute name is reserved in Lean), a variable assignment and a domain
assignment. -/
structure Interpretation (α : Type) where
  struct : Structure α
  variableAssignment : List (List Char × Val α)
  domainAssignment : List (List Char × Val α)

/-- The source Interpretation.interpret: look the symbol up in the
structure mappings, else the variable assignment, else the domain
assignment; first match wins, and an unresolved symbol is an error. -/
def Interpretation.interpret {α : Type} (i : Interpretation α)
    (symbol : List Char) : Except String (Val α) :=
  match dictLookup i.struct.mappings symbol with
  | some v => .ok v
  | none =>
    match dictLookup i.variableAssignment symbol with
    | some v => .ok v
    | none =>
      match dictLookup i.domainAssignment symbol with
      | some v => .ok v
      | none => .error ("Symbol '" ++ String.mk symbol ++ "' is not interpretable.")

/-- The source Interpretation.extend: a new Interpretation sharing the
structure and domain assignment, whose variable assignment is a copy of the
receiver one updated with the substitution (copy.copy followed by update;
the receiver is not modified, which the functional model makes intrinsic). -/
def Interpretation.extend {α : Type} (i : Interpretation α)
    (substitution : List (List Char × Val α)) : Interpretation α :=
  ⟨i.struct, dictUpdate i.variableAssignment substitution, i.domainAssignment⟩

/-- The source KnowledgeBase data: a signature and the ordered parse trees. -/
structure KnowledgeBase where
  signature : Signature
  parseTrees : List ParseTree

/-- The source KnowledgeBase.add. A pre-parsed tree must carry the knowledge
base signature and is appended; a text is parsed against that signature with
onlyFormulas, a parse failure being wrapped in an error naming the text. The
functional model returns the new knowledge base, the source mutating in
place only after every check has passed. -/
def KnowledgeBase.add (kb : KnowledgeBase) (formula : ParseTree ⊕ List Char) :
    Except String KnowledgeBase :=
  match formula with
  | Sum.inl pt =>
    if pt.signature ≠ kb.signature then
      .error "Formula signature must match knowledge base signature."
    else .ok ⟨kb.signature, kb.parseTrees ++ [pt]⟩
  | Sum.inr text =>
    match parse text kb.signature true with
    | .ok pt => .ok ⟨kb.signature, kb.parseTrees ++ [pt]⟩
    | .error err =>
      .error ("Could not parse formula " ++ String.mk text ++ ". " ++ err)

/-- Evaluate a list of trees in order, aborting at the first error (the
result-collecting loops of the source evaluate and evaluateKB). -/
def evalList {α : Type} (p : ParseTree → Except String (Val α)) :
    List ParseTree → Except String (List (Val α))
  | [] => .ok []
  | t :: ts => do
    let v ← p t
    let vs ← evalList p ts
    .ok (v :: vs)

/-- Coerce every collected result to a batch, in order (the requirement of
tf.concat that its inputs be tensors). -/
def concatBatchVals {α : Type} : List (Val α) → Except String (List (List α))
  | [] => .ok []
  | v :: vs => do
    let b ← v.asBatch
    let bs ← concatBatchVals vs
    .ok (b :: bs)

/-- The quantifier loop of the source evaluate: for each index i of the
domain batch in order, the slice domain[i:i+1] is the singleton batch of
the i-th element, passed to the per-element evaluation. -/
def evalOverDomain {α : Type} (q : List α → Except String (Val α)) :
    List α → Except String (List (Val α))
  | [] => .ok []
  | d :: rest => do
    let r ← q [d]
    let rs ← evalOverDomain q rest
    .ok (r :: rs)

/-- The quantifier branch of the source evaluate, parameterised by the
chosen aggregator: resolve the domain symbol through the interpretation,
evaluate the child once per domain element in order, each time under the
interpretation extended with the bound variable mapped to that single
element, concatenate the results and reduce with the aggregator. -/
def quantBody {α : Type} (p : ParseTree → Interpretation α → Except String (Val α))
    (agg : List α → List α) (v : TreeVal) (children : ParseTreeList)
    (interpretation : Interpretation α) : Except String (Val α) :=
  let boundVariable := v.fst
  let domainSymbol := v.snd
  match children with
  | .cons child _ => do
    let domVal ← interpretation.interpret domainSymbol
    let domain ← domVal.asBatch
    let results ← evalOverDomain
      (fun vv => p child (interpretation.extend [(boundVariable, Val.batch vv)]))
      domain
    let concatenated ← concatBatchVals results
    .ok (.batch (agg concatenated.flatten))
  | .nil => .error "Quantifier node without a child."

/-- The source evaluate: structural recursion over the parse tree, with
explicit fuel bounding the recursion depth (one unit per recursive call). -/
def evalFuel {α : Type} (junctors : OperatorSet α) :
    Nat → ParseTree → Interpretation α → Except String (Val α)
  | 0, _, _ => .error "Evaluator recursion limit exceeded."
  | n + 1, t, interpretation =>
    match t with
    | .mk v ty children _ =>
      match ty with
      | .CONSTANT =>
        (match v with
          | .sym s => interpretation.interpret s
          | .pair _ _ => .error "Node value is not a symbol.")
      | .VARIABLE =>
        (match v with
          | .sym s => interpretation.interpret s
          | .pair _ _ => .error "Node value is not a symbol.")
      | .FUNCTOR =>
        (match v with
          | .sym s => do
            let childValues ←
              evalList (fun c => evalFuel junctors n c interpretation) children.toList
            let f ← interpretation.interpret s
            match f with
            | .fn g => do
              let argBatches ← concatBatchVals childValues
              .ok (.batch (g argBatches))
            | .batch _ => .error "Symbol mapping is not callable."
          | .pair _ _ => .error "Node value is not a symbol.")
      | .PREDICATE =>
        (match v with
          | .sym s => do
            let childValues ←
              evalList (fun c => evalFuel junctors n c interpretation) children.toList
            let f ← interpretation.interpret s
            match f with
            | .fn g => do
              let argBatches ← concatBatchVals childValues
              .ok (.batch (g argBatches))
            | .batch _ => .error "Symbol mapping is not callable."
          | .pair _ _ => .error "Node value is not a symbol.")
      | .BRACKET =>
        (match children with
          | .cons c _ => evalFuel junctors n c interpretation
          | .nil => .error "Bracket node without a child.")
      | .NEGATION =>
        (match children with
          | .cons c _ => do
            let cv ← evalFuel junctors n c interpretation
            let b ← cv.asBatch
            .ok (.batch (junctors.negation b))
          | .nil => .error "Negation node without a child.")
      | .CONJUNCTION =>
        (match children with
          | .cons c1 (.cons c2 _) => do
            let v1 ← evalFuel junctors n c1 interpretation
            let v2 ← evalFuel junctors n c2 interpretation
            let b1 ← v1.asBatch
            let b2 ← v2.asBatch
            .ok (.batch (junctors.tnorm b1 b2))
          | _ => .error "Binary junctor node without two children.")
      | .DISJUNCTION =>
        (match children with
          | .cons c1 (.cons c2 _) => do
            let v1 ← evalFuel junctors n c1 interpretation
            let v2 ← evalFuel junctors n c2 interpretation
            let b1 ← v1.asBatch
            let b2 ← v2.asBatch
            .ok (.batch (junctors.tconorm b1 b2))
          | _ => .error "Binary junctor node without two children.")
      | .IMPLICATION =>
        (match children with
          | .cons c1 (.cons c2 _) => do
            let v1 ← evalFuel junctors n c1 interpretation
            let v2 ← evalFuel junctors n c2 interpretation
            let b1 ← v1.asBatch
            let b2 ← v2.asBatch
            .ok (.batch (junctors.implication b1 b2))
          | _ => .error "Binary junctor node without two children.")
      | .UNIVERSAL =>
        quantBody (fun c i2 => evalFuel junctors n c i2) junctors.universal
          v children interpretation
      | .EXISTENTIAL =>
        quantBody (fun c i2 => evalFuel junctors n c i2) junctors.existential
          v children interpretation

/-- The source evaluateKB with an explicit aggregator argument: evaluate
every formula of the knowledge base in stored order into one value each,
concatenate the values into a single batch, and apply the aggregator. -/
def evaluateKB {α : Type} (junctors : OperatorSet α) (aggregator : List α → List α)
    (fuel : Nat) (knowledgeBase : KnowledgeBase) (interpretation : Interpretation α) :
    Except String (Val α) := do
  let results ←
    evalList (fun pt => evalFuel junctors fuel pt interpretation)
      knowledgeBase.parseTrees
  let concatenated ← concatBatchVals results
  .ok (.batch (aggregator concatenated.flatten))

/-! The standard product operator set (fuzzyops.operators), over real
scalars: tensors of fuzzy truth values are batches of reals, elementwise
tensorflow arithmetic is elementwise list arithmetic, tf.reduce_mean with
keepdims produces a one-element batch, and tf.pow is the real power
function. These definitions are noncomputable models of floating-point
code. -/

/-- Strong negation 1 - a, elementwise on a batch. -/
def strongNegation (a : List ℝ) : List ℝ :=
  a.map (fun x => 1 - x)

/-- The product t-norm a * b, elementwise. -/
def tnormProduct (a b : List ℝ) : List ℝ :=
  List.zipWith (fun x y => x * y) a b

/-- The product t-conorm (a + b) - a * b, elementwise. -/
def tconormProduct (a b : List ℝ) : List ℝ :=
  List.zipWith (fun x y => (x + y) - x * y) a b

/-- S-implication built from a t-conorm. -/
def sImplication (tc : List ℝ → List ℝ → List ℝ) : List ℝ → List ℝ → List ℝ :=
  fun a c => tc (strongNegation a) c

/-- Generalised mean aggregator: the p-mean of the batch as a one-element
batch (tf.reduce_mean with keepdims). -/
noncomputable def generalisedMeanAgg (t : List ℝ) (p : ℝ) : List ℝ :=
  [((t.map (fun x => x ^ p)).sum / (t.length : ℝ)) ^ (1 / p)]

/-- Generalised mean error aggregator: one minus the p-mean of one minus
the batch. -/
noncomputable def generalisedMeanErrorAgg (t : List ℝ) (p : ℝ) : List ℝ :=
  [1 - (((t.map (fun x => (1 - x) ^ p)).sum / (t.length : ℝ)) ^ (1 / p))]

/-- The source OperatorSet constructor: with a non-zero projection epsilon
every operator except negation first projects its inputs into the open unit
interval (incProj towards one for t-norm inputs and the implication
antecedent and the existential aggregator, decProj towards zero for the
others); with epsilon zero the operators are taken as given. The source
raises on a negative epsilon, a path no claim exercises. -/
noncomputable def mkOperatorSet (negation : List ℝ → List ℝ)
    (tnorm tconorm implication : List ℝ → List ℝ → List ℝ)
    (universal existential : List ℝ → List ℝ) (projectionEpsilon : ℝ) :
    OperatorSet ℝ :=
  if projectionEpsilon = 0 then
    ⟨negation, tnorm, tconorm, implication, universal, existential⟩
  else
    let incProj := fun (x : ℝ) => (1 - projectionEpsilon) * x + projectionEpsilon
    let decProj := fun (x : ℝ) => (1 - projectionEpsilon) * x
    ⟨negation,
      fun a b => tnorm (a.map incProj) (b.map incProj),
      fun a b => tconorm (a.map decProj) (b.map decProj),
      fun a b => implication (a.map incProj) (b.map decProj),
      fun t => universal (t.map decProj),
      fun t => existential (t.map incProj)⟩

/-- The module-level standard product operator set of the source, with
projection epsilon 0.001. -/
noncomputable def standardProductSet : OperatorSet ℝ :=
  mkOperatorSet strongNegation tnormProduct tconormProduct
    (sImplication tconormProduct)
    (fun t => generalisedMeanErrorAgg t 2)
    (fun t => generalisedMeanAgg t 1)
    0.001

/-- The source evaluateKB as called with the aggregator argument omitted:
the default argument value is the fixed standardProductSet.universal
aggregator (not an aggregator taken from the junctors argument). -/
noncomputable def evaluateKBDefault (junctors : OperatorSet ℝ) (fuel : Nat)
    (knowledgeBase : KnowledgeBase) (interpretation : Interpretation ℝ) :
    Except String (Val ℝ) :=
  evaluateKB junctors standardProductSet.universal fuel knowledgeBase interpretation


/-! Claim theorems and their concrete witnesses. -/

/-- C4: for every Interpretation and symbol, interpret returns the
structure mapping when the structure contains the symbol; otherwise the
variable assignment value when it contains it; otherwise the domain
assignment value when it contains it; the first match wins, and when none
of the three contains the symbol the call fails with an unresolved-symbol
error. -/
theorem interpret_resolution_order {α : Type} (i : Interpretation α)
    (symbol : List Char) :
    (∀ v, dictLookup i.struct.mappings symbol = some v →
      i.interpret symbol = .ok v) ∧
    (∀ v, dictLookup i.struct.mappings symbol = none →
      dictLookup i.variableAssignment symbol = some v →
      i.interpret symbol = .ok v) ∧
    (∀ v, dictLookup i.struct.mappings symbol = none →
      dictLookup i.variableAssignment symbol = none →
      dictLookup i.domainAssignment symbol = some v →
      i.interpret symbol = .ok v) ∧
    (dictLookup i.struct.mappings symbol = none →
      dictLookup i.variableAssignment symbol = none →
      dictLookup i.domainAssignment symbol = none →
      i.interpret symbol =
        .error ("Symbol '" ++ String.mk symbol ++ "' is not interpretable.")) := by
  refine ⟨fun v h1 => ?_, fun v h1 h2 => ?_, fun v h1 h2 h3 => ?_, fun h1 h2 h3 => ?_⟩ <;>
    simp [Interpretation.interpret, h1]
  · rw [h2]
  · rw [h2, h3]
  · rw [h2, h3]

/-- Fixture interpretation for the resolution-order witness: the symbol a
is mapped by the structure and shadowed in the variable assignment, x by
the variable assignment and shadowed in the domain assignment, D only by
the domain assignment, and z by none of the three. -/
def interpFix : Interpretation Nat :=
  ⟨⟨⟨[], [], []⟩, [("a".toList, Val.batch [1])]⟩,
   [("a".toList, Val.batch [2]), ("x".toList, Val.batch [3])],
   [("x".toList, Val.batch [4]), ("D".toList, Val.batch [5])]⟩

/-- Witness for C4 at a concrete interpretation: every precedence clause
realised, the shadowed entries losing to the earlier namespace. -/
theorem interpret_resolution_order_witness :
    interpFix.interpret ("a".toList) = .ok (Val.batch [1]) ∧
    interpFix.interpret ("x".toList) = .ok (Val.batch [3]) ∧
    interpFix.interpret ("D".toList) = .ok (Val.batch [5]) ∧
    interpFix.interpret ("z".toList) = .error "Symbol 'z' is not interpretable." :=
  ⟨(interpret_resolution_order interpFix ("a".toList)).1 _ rfl,
   (interpret_resolution_order interpFix ("x".toList)).2.1 _ rfl rfl,
   (interpret_resolution_order interpFix ("D".toList)).2.2.1 _ rfl rfl rfl,
   (interpret_resolution_order interpFix ("z".toList)).2.2.2 rfl rfl rfl⟩

/-- C5: extend returns a new Interpretation with the same structure and
domain assignment, whose variable assignment is the receiver assignment
overlaid by the substitution (substitution bindings shadowing existing
ones); the receiver is a pure value in this model, so the source guarantee
that the receiver is left unmodified is intrinsic: the new interpretation
is built from the receiver fields without altering them. -/
theorem extend_copy_on_write {α : Type} (i : Interpretation α)
    (s : List (List Char × Val α)) (hs : (s.map Prod.fst).Nodup) :
    (i.extend s).struct = i.struct ∧
    (i.extend s).domainAssignment = i.domainAssignment ∧
    (∀ x, dictLookup (i.extend s).variableAssignment x =
      orElseOpt (dictLookup s x) (dictLookup i.variableAssignment x)) :=
  ⟨rfl, rfl, fun x => by
    show dictLookup (dictUpdate i.variableAssignment s) x = _
    exact lookup_dictUpdate i.variableAssignment s hs x⟩

/-- Fixture substitution for the extend witness. -/
def substFix : List (List Char × Val Nat) :=
  [("x".toList, Val.batch [9]), ("y".toList, Val.batch [7])]

/-- Witness for C5 at a concrete interpretation and substitution: the
substitution shadows the existing binding of x, the untouched binding of a
survives, and structure and domain assignment are shared. -/
theorem extend_copy_on_write_witness :
    ((interpFix.extend substFix).struct = interpFix.struct ∧
      (interpFix.extend substFix).domainAssignment = interpFix.domainAssignment) ∧
    dictLookup (interpFix.extend substFix).variableAssignment ("x".toList) =
      orElseOpt (dictLookup substFix ("x".toList))
        (dictLookup interpFix.variableAssignment ("x".toList)) :=
  ⟨⟨(extend_copy_on_write interpFix substFix (by decide)).1,
    (extend_copy_on_write interpFix substFix (by decide)).2.1⟩,
   (extend_copy_on_write interpFix substFix (by decide)).2.2 ("x".toList)⟩

/-- Signature with the unary predicate P, for the bound-variable claim. -/
def sigPred1 : Signature := ⟨[("P".toList, 1)], [], []⟩

/-- The parse tree of Axy~D:P(xy) over sigPred1. -/
def treeAxy : ParseTree :=
  .mk (.pair "xy".toList "D".toList) .UNIVERSAL
    (.cons (.mk (.sym "P".toList) .PREDICATE
      (.cons (.mk (.sym "xy".toList) .VARIABLE .nil sigPred1) .nil) sigPred1) .nil)
    sigPred1

/-- C3 (code defect): on the parsed formula Axy~D:P(xy), whose only
variable token is the two-character xy, getVariables returns the token xy,
but getBound returns the two one-character tokens x and y (the source
extends the bound list with the characters of the variable string), so the
union of getFree and getBound is not the set returned by getVariables. -/
theorem getBound_character_split_defect :
    parse ("Axy~D:P(xy)".toList) sigPred1 false = .ok treeAxy ∧
    treeAxy.getVariables = ["xy".toList] ∧
    treeAxy.getBound = [['x'], ['y']] ∧
    treeAxy.getFree = ["xy".toList] ∧
    ¬ (∀ v, (v ∈ treeAxy.getFree ∨ v ∈ treeAxy.getBound) ↔ v ∈ treeAxy.getVariables) := by
  refine ⟨rfl, rfl, rfl, rfl, fun h => ?_⟩
  have hx : (['x'] : List Char) ∈ treeAxy.getVariables :=
    (h ['x']).mp (Or.inr (by decide))
  exact absurd hx (by decide)

theorem evalOverDomain_map {α : Type} (q : List α → Except String (Val α))
    (dom : List α) (f : α → List α)
    (h : ∀ d ∈ dom, q [d] = .ok (Val.batch (f d))) :
    evalOverDomain q dom = .ok (dom.map (fun d => Val.batch (f d))) := by
  induction dom with
  | nil => rfl
  | cons d rest ih =>
    have hd := h d (List.mem_cons_self d rest)
    have hrest : ∀ d2 ∈ rest, q [d2] = .ok (Val.batch (f d2)) :=
      fun d2 hd2 => h d2 (List.mem_cons_of_mem d hd2)
    simp only [evalOverDomain]
    rw [hd, ih hrest]
    rfl

theorem concatBatchVals_map_batch {α : Type} (bs : List (List α)) :
    concatBatchVals (bs.map Val.batch) = .ok bs := by
  induction bs with
  | nil => rfl
  | cons b rest ih =>
    simp only [List.map_cons, concatBatchVals]
    rw [ih]
    rfl

theorem evalList_of_forall2 {α : Type} (p : ParseTree → Except String (Val α)) :
    ∀ {ts : List ParseTree} {bs : List (List α)},
      List.Forall₂ (fun t b => p t = .ok (Val.batch b)) ts bs →
      evalList p ts = .ok (bs.map Val.batch) := by
  intro ts bs h
  induction h with
  | nil => rfl
  | cons h1 _ ih =>
    simp only [evalList]
    rw [h1, ih]
    rfl

/-- C1: evaluating a Universal or Existential node under an interpretation
that resolves the domain symbol (through the domain assignment, the
structure and variable assignment not containing it) to a batch of values
evaluates the single child formula once per domain element in the stored
order, each time under the interpretation extended with the quantified
variable bound to the singleton batch of that element, concatenates the
per-element results in that order, and reduces the batch with the operator
set universal (for Universal) or existential (for Existential) aggregator.
Stated as the recurrence of the fuel-indexed evaluator: the quantifier node
at any fuel amount n + 1, the child evaluations at fuel n. -/
theorem evaluate_quantifier_grounding {α : Type} (junctors : OperatorSet α)
    (n : Nat) (i : Interpretation α) (x D : List Char) (child : ParseTree)
    (rest : ParseTreeList) (sig : Signature) (dom : List α) (f : α → List α)
    (hstruct : dictLookup i.struct.mappings D = none)
    (hvar : dictLookup i.variableAssignment D = none)
    (hdom : dictLookup i.domainAssignment D = some (Val.batch dom))
    (hchild : ∀ d ∈ dom,
      evalFuel junctors n child (i.extend [(x, Val.batch [d])]) =
        .ok (Val.batch (f d))) :
    evalFuel junctors (n + 1)
        (ParseTree.mk (TreeVal.pair x D) NodeType.UNIVERSAL
          (ParseTreeList.cons child rest) sig) i =
      .ok (Val.batch (junctors.universal (dom.map f).flatten)) ∧
    evalFuel junctors (n + 1)
        (ParseTree.mk (TreeVal.pair x D) NodeType.EXISTENTIAL
          (ParseTreeList.cons child rest) sig) i =
      .ok (Val.batch (junctors.existential (dom.map f).flatten)) := by
  have hinterp : i.interpret D = .ok (Val.batch dom) := by
    simp only [Interpretation.interpret]
    rw [hstruct, hvar, hdom]
  have hover :
      evalOverDomain
        (fun vv => evalFuel junctors n child (i.extend [(x, Val.batch vv)])) dom =
      .ok (dom.map (fun d => Val.batch (f d))) :=
    evalOverDomain_map _ dom f hchild
  have hconcat : concatBatchVals (dom.map (fun d => Val.batch (f d))) =
      .ok (dom.map f) := by
    have h2 := concatBatchVals_map_batch (α := α) (dom.map f)
    rwa [List.map_map] at h2
  constructor
  · simp only [evalFuel, quantBody, TreeVal.fst, TreeVal.snd]
    rw [hinterp]
    show (do
      let results ← evalOverDomain
        (fun vv => evalFuel junctors n child (i.extend [(x, Val.batch vv)])) dom
      let concatenated ← concatBatchVals results
      Except.ok (Val.batch (junctors.universal concatenated.flatten))) = _
    rw [hover]
    show (do
      let concatenated ← concatBatchVals (dom.map (fun d => Val.batch (f d)))
      Except.ok (Val.batch (junctors.universal concatenated.flatten))) = _
    rw [hconcat]
    rfl
  · simp only [evalFuel, quantBody, TreeVal.fst, TreeVal.snd]
    rw [hinterp]
    show (do
      let results ← evalOverDomain
        (fun vv => evalFuel junctors n child (i.extend [(x, Val.batch vv)])) dom
      let concatenated ← concatBatchVals results
      Except.ok (Val.batch (junctors.existential concatenated.flatten))) = _
    rw [hover]
    show (do
      let concatenated ← concatBatchVals (dom.map (fun d => Val.batch (f d)))
      Except.ok (Val.batch (junctors.existential concatenated.flatten))) = _
    rw [hconcat]
    rfl

/-- Fixture operator set over natural-number batches: the universal
aggregator sums the batch, the existential aggregator takes its length. -/
def opsNat : OperatorSet Nat :=
  ⟨id, fun a _ => a, fun a _ => a, fun a _ => a,
   fun t => [t.sum], fun t => [t.length]⟩

/-- Fixture interpretation binding only the domain symbol D. -/
def interpDom : Interpretation Nat :=
  ⟨⟨⟨[], [], []⟩, []⟩, [], [("D".toList, Val.batch [1, 2, 3])]⟩

/-- Fixture child formula: the bare variable x. -/
def childVarX : ParseTree :=
  .mk (.sym "x".toList) .VARIABLE .nil ⟨[], [], []⟩

/-- Witness for C1: grounding x over the three-element domain D evaluates
the child three times, the concatenated results summing to 6 under the
universal aggregator and counting to 3 under the existential one. -/
theorem evaluate_quantifier_grounding_witness :
    evalFuel opsNat 2
        (ParseTree.mk (TreeVal.pair "x".toList "D".toList) NodeType.UNIVERSAL
          (ParseTreeList.cons childVarX ParseTreeList.nil) ⟨[], [], []⟩) interpDom =
      .ok (Val.batch [6]) ∧
    evalFuel opsNat 2
        (ParseTree.mk (TreeVal.pair "x".toList "D".toList) NodeType.EXISTENTIAL
          (ParseTreeList.cons childVarX ParseTreeList.nil) ⟨[], [], []⟩) interpDom =
      .ok (Val.batch [3]) := by
  have h := evaluate_quantifier_grounding opsNat 1 interpDom ("x".toList) ("D".toList)
    childVarX ParseTreeList.nil ⟨[], [], []⟩ [1, 2, 3] (fun d => [d]) rfl rfl rfl
    (by
      intro d hd
      fin_cases hd <;> rfl)
  exact ⟨h.1.trans rfl, h.2.trans rfl⟩

/-- C2 (amended): evaluateKB evaluates each formula of the knowledge base
in stored order into one value each, concatenates those values into a
single batch, and applies the aggregator argument to produce one value;
and the call with the aggregator argument omitted uses the fixed default
standardProductSet.universal (the standard product operator set), not an
aggregator drawn from the operator-set argument. -/
theorem evaluateKB_aggregation :
    (∀ {α : Type} (junctors : OperatorSet α) (aggregator : List α → List α)
      (fuel : Nat) (kb : KnowledgeBase) (i : Interpretation α)
      (bs : List (List α)),
      List.Forall₂ (fun pt b => evalFuel junctors fuel pt i = .ok (Val.batch b))
        kb.parseTrees bs →
      evaluateKB junctors aggregator fuel kb i =
        .ok (Val.batch (aggregator bs.flatten))) ∧
    (∀ (junctors : OperatorSet ℝ) (fuel : Nat) (kb : KnowledgeBase)
      (i : Interpretation ℝ) (bs : List (List ℝ)),
      List.Forall₂ (fun pt b => evalFuel junctors fuel pt i = .ok (Val.batch b))
        kb.parseTrees bs →
      evaluateKBDefault junctors fuel kb i =
        .ok (Val.batch (standardProductSet.universal bs.flatten))) := by
  have main : ∀ {α : Type} (junctors : OperatorSet α)
      (aggregator : List α → List α) (fuel : Nat) (kb : KnowledgeBase)
      (i : Interpretation α) (bs : List (List α)),
      List.Forall₂ (fun pt b => evalFuel junctors fuel pt i = .ok (Val.batch b))
        kb.parseTrees bs →
      evaluateKB junctors aggregator fuel kb i =
        .ok (Val.batch (aggregator bs.flatten)) := by
    intro α junctors aggregator fuel kb i bs h
    simp only [evaluateKB]
    rw [evalList_of_forall2 _ h]
    show (do
      let concatenated ← concatBatchVals (bs.map Val.batch)
      Except.ok (Val.batch (aggregator concatenated.flatten))) = _
    rw [concatBatchVals_map_batch]
    rfl
  exact ⟨fun junctors agg fuel kb i bs h => main junctors agg fuel kb i bs h,
    fun junctors fuel kb i bs h => by
      show evaluateKB junctors standardProductSet.universal fuel kb i = _
      exact main junctors standardProductSet.universal fuel kb i bs h⟩

/-- Fixture signature with the single constant c. -/
def sigConst : Signature := ⟨[], [], ["c".toList]⟩

/-- The parse tree of the bare constant c. -/
def treeConst : ParseTree := .mk (.sym "c".toList) .CONSTANT .nil sigConst

/-- A knowledge base holding that single tree. -/
def kbConst : KnowledgeBase := ⟨sigConst, [treeConst]⟩

/-- Interpretation over real batches mapping c to the batch holding 0. -/
noncomputable def interpConst : Interpretation ℝ :=
  ⟨⟨sigConst, [("c".toList, Val.batch [0])]⟩, [], []⟩

/-- An operator set whose universal aggregator is constantly the batch
holding 1 (distinguishing it from the fixed default aggregator). -/
noncomputable def opsOne : OperatorSet ℝ :=
  ⟨id, fun a _ => a, fun a _ => a, fun a _ => a, fun _ => [1], fun _ => [1]⟩

theorem standardProductSet_universal_zero :
    standardProductSet.universal [(0 : ℝ)] = [0] := by
  have hne : (0.001 : ℝ) ≠ 0 := by norm_num
  simp only [standardProductSet, mkOperatorSet, if_neg hne]
  simp only [generalisedMeanErrorAgg, List.map_cons, List.map_nil, List.sum_cons,
    List.sum_nil, List.length_cons, List.length_nil]
  norm_num

/-- C2 counterexample: at a one-formula knowledge base evaluating to the
batch holding 0, the call with the aggregator omitted produces the batch
holding 0 (the fixed standardProductSet.universal default), while the
claimed behaviour, aggregating with the universal aggregator of the
operator-set argument, produces the batch holding 1; the two results
differ, so the omitted-argument default is not the operator-set argument
universal aggregator. -/
theorem evaluateKB_default_counterexample :
    evaluateKBDefault opsOne 1 kbConst interpConst =
      .ok (Val.batch (standardProductSet.universal [0])) ∧
    standardProductSet.universal [(0 : ℝ)] = [0] ∧
    evaluateKB opsOne opsOne.universal 1 kbConst interpConst =
      .ok (Val.batch [1]) ∧
    evaluateKBDefault opsOne 1 kbConst interpConst ≠
      evaluateKB opsOne opsOne.universal 1 kbConst interpConst := by
  have h1 : evaluateKBDefault opsOne 1 kbConst interpConst =
      .ok (Val.batch (standardProductSet.universal [0])) := rfl
  have h3 : evaluateKB opsOne opsOne.universal 1 kbConst interpConst =
      .ok (Val.batch [1]) := rfl
  refine ⟨h1, standardProductSet_universal_zero, h3, ?_⟩
  rw [h1, h3, standardProductSet_universal_zero]
  intro h
  simp only [Except.ok.injEq, Val.batch.injEq, List.cons.injEq] at h
  exact absurd h.1 (by norm_num)

/-- Fixture knowledge base over natural-number batches with two constant
formulas. -/
def sigConstNat : Signature := ⟨[], [], ["c".toList, "d".toList]⟩

def kbNat : KnowledgeBase :=
  ⟨sigConstNat,
   [.mk (.sym "c".toList) .CONSTANT .nil sigConstNat,
    .mk (.sym "d".toList) .CONSTANT .nil sigConstNat]⟩

def interpNat : Interpretation Nat :=
  ⟨⟨sigConstNat, [("c".toList, Val.batch [2]), ("d".toList, Val.batch [3])]⟩, [], []⟩

/-- Witness for C2 (amended): both conjuncts applied at concrete inputs,
the explicit aggregator summing the concatenated batch of the two formula
values, and the omitted-argument call reducing to the fixed default. -/
theorem evaluateKB_aggregation_witness :
    evaluateKB opsNat (fun t => [t.sum]) 1 kbNat interpNat =
      .ok (Val.batch [5]) ∧
    evaluateKBDefault opsOne 1 kbConst interpConst =
      .ok (Val.batch (standardProductSet.universal [0])) := by
  have h1 := evaluateKB_aggregation.1 opsNat (fun t => [t.sum]) 1 kbNat interpNat
    [[2], [3]] (List.Forall₂.cons rfl (List.Forall₂.cons rfl List.Forall₂.nil))
  have h2 := evaluateKB_aggregation.2 opsOne 1 kbConst interpConst [[0]]
    (List.Forall₂.cons rfl List.Forall₂.nil)
  exact ⟨h1.trans rfl, h2⟩

/-- C9: adding a pre-parsed tree whose signature differs from the knowledge
base signature is an error, a matching tree is appended at the end; adding
a text that parses as a formula under the knowledge base signature appends
the parsed tree, and a text that fails to parse (or parses to a non-formula,
which the onlyFormulas parse also reports as a failure) yields a wrapped
error naming the offending text. In this functional model an error returns
no new knowledge base, the caller value being immutable, which renders the
source guarantee that a failed add leaves the formula list unchanged. -/
theorem knowledgeBase_add_spec (kb : KnowledgeBase) (pt : ParseTree)
    (text : List Char) :
    (pt.signature ≠ kb.signature →
      kb.add (Sum.inl pt) =
        .error "Formula signature must match knowledge base signature.") ∧
    (pt.signature = kb.signature →
      kb.add (Sum.inl pt) = .ok ⟨kb.signature, kb.parseTrees ++ [pt]⟩) ∧
    (∀ t, parse text kb.signature true = .ok t →
      kb.add (Sum.inr text) = .ok ⟨kb.signature, kb.parseTrees ++ [t]⟩) ∧
    (∀ e, parse text kb.signature true = .error e →
      kb.add (Sum.inr text) =
        .error ("Could not parse formula " ++ String.mk text ++ ". " ++ e)) := by
  refine ⟨fun h => ?_, fun h => ?_, fun t h => ?_, fun e h => ?_⟩
  · simp [KnowledgeBase.add, h]
  · simp [KnowledgeBase.add, h]
  · simp [KnowledgeBase.add, h]
  · simp [KnowledgeBase.add, h]

/-- Fixture signature for the knowledge base witness: binary predicate
Friend, constants a and b. -/
def sigFriend : Signature :=
  ⟨[("Friend".toList, 2)], [], ["a".toList, "b".toList]⟩

/-- The parse tree of Friend(a,b) over sigFriend. -/
def treeFriendAB : ParseTree :=
  .mk (.sym "Friend".toList) .PREDICATE
    (.cons (.mk (.sym "a".toList) .CONSTANT .nil sigFriend)
      (.cons (.mk (.sym "b".toList) .CONSTANT .nil sigFriend) .nil)) sigFriend

/-- An empty knowledge base over sigFriend. -/
def kbFriend : KnowledgeBase := ⟨sigFriend, []⟩

/-- Witness for C9 at concrete inputs: a tree carrying a foreign signature
is rejected, the same-signature tree is appended, the well-formed text
Friend(a,b) is parsed and appended, and the malformed text Friend( is
rejected with the wrapped error naming it. -/
theorem knowledgeBase_add_spec_witness :
    kbFriend.add (Sum.inl treeConst) =
      .error "Formula signature must match knowledge base signature." ∧
    kbFriend.add (Sum.inl treeFriendAB) = .ok ⟨sigFriend, [treeFriendAB]⟩ ∧
    kbFriend.add (Sum.inr ("Friend(a,b)".toList)) = .ok ⟨sigFriend, [treeFriendAB]⟩ ∧
    kbFriend.add (Sum.inr ("Friend(".toList)) =
      .error ("Could not parse formula Friend(. " ++
        "Symbol Friend has arity 2but received 1 arguments in Friend(.") :=
  ⟨(knowledgeBase_add_spec kbFriend treeConst []).1 (by decide),
   (knowledgeBase_add_spec kbFriend treeFriendAB []).2.1 rfl,
   (knowledgeBase_add_spec kbFriend treeFriendAB ("Friend(a,b)".toList)).2.2.1
     treeFriendAB rfl,
   (knowledgeBase_add_spec kbFriend treeFriendAB ("Friend(".toList)).2.2.2
     ("Symbol Friend has arity 2but received 1 arguments in Friend(.") rfl⟩

/-! Auxiliary facts about the string helpers, used by the parser claims. -/

theorem findChar_eq_none {s : List Char} {c : Char} (h : c ∉ s) :
    findChar s c = none := by
  induction s with
  | nil => rfl
  | cons x rest ih =>
    have hxc : x ≠ c := fun he => h (he ▸ List.mem_cons_self x rest)
    have hrest : c ∉ rest := fun hm => h (List.mem_cons_of_mem x hm)
    simp [findChar, hxc, ih hrest]

theorem findChar_append {pre suf : List Char} {c : Char} (h : c ∉ pre) :
    findChar (pre ++ suf) c = (findChar suf c).map (fun j => j + pre.length) := by
  induction pre with
  | nil => simp
  | cons x rest ih =>
    have hxc : x ≠ c := fun he => h (he ▸ List.mem_cons_self x rest)
    have hrest : c ∉ rest := fun hm => h (List.mem_cons_of_mem x hm)
    show findChar (x :: (rest ++ suf)) c = _
    simp only [findChar, hxc, if_false]
    rw [ih hrest]
    cases findChar suf c with
    | none => rfl
    | some j => rfl

theorem findChar_append_self {pre suf : List Char} {c : Char} (h : c ∉ pre) :
    findChar (pre ++ c :: suf) c = some pre.length := by
  rw [findChar_append h]
  simp [findChar]

theorem findTopLevelAux_head_mem {key : List Char} {c : Char}
    (hc : key.head? = some c) :
    ∀ (t : List Char) (d i p : Nat), findTopLevelAux key t d i = some p → c ∈ t := by
  intro t
  induction t with
  | nil => intro d i p h; exact absurd h (by simp [findTopLevelAux])
  | cons x rest ih =>
    intro d i p h
    simp only [findTopLevelAux] at h
    by_cases hcond :
        (key.isPrefixOf (x :: rest) && (if x = ')' then d - 1 else d) == 0) = true
    · rw [if_pos hcond] at h
      have hpre : key.isPrefixOf (x :: rest) = true := by
        exact (Bool.and_eq_true _ _ |>.mp hcond).1
      obtain ⟨k, hk⟩ : ∃ k, key = c :: k := by
        cases key with
        | nil => exact absurd hc (by simp)
        | cons a b =>
          have hac : a = c := by simpa using hc
          exact ⟨b, by rw [hac]⟩
      rw [hk] at hpre
      have : c = x := by
        cases hp2 : List.isPrefixOf (c :: k) (x :: rest) with
        | false => rw [hp2] at hpre; exact absurd hpre (by simp)
        | true =>
          have := List.isPrefixOf_iff_prefix.mp hp2
          exact (List.cons_prefix_cons.mp this).1
      exact this ▸ List.mem_cons_self x rest
    · rw [if_neg hcond] at h
      exact List.mem_cons_of_mem x (ih _ _ _ h)

theorem findTopLevel_eq_none_of_head_notMem {s key : List Char} {c : Char}
    (hc : key.head? = some c) (hmem : c ∉ s) : findTopLevel s key = none := by
  cases h : findTopLevel s key with
  | none => rfl
  | some p => exact absurd (findTopLevelAux_head_mem hc s 0 0 p h) hmem

theorem splitAtLevelAux_length (sep s : List Char) :
    ∀ (t : List Char) (i d b : Nat) (acc : List (List Char)),
      acc.length + 1 ≤ (splitAtLevelAux sep s t i d b acc).length := by
  intro t
  induction t with
  | nil => intro i d b acc; simp [splitAtLevelAux]
  | cons c rest ih =>
    intro i d b acc
    simp only [splitAtLevelAux]
    by_cases h1 : c = '('
    · rw [if_pos h1]; exact ih _ _ _ _
    · rw [if_neg h1]
      by_cases h2 : c = ')'
      · rw [if_pos h2]; exact ih _ _ _ _
      · rw [if_neg h2]
        by_cases h3 : (d == 0 && sep.isPrefixOf (c :: rest)) = true
        · rw [if_pos h3]
          have := ih (i + 1) d (i + sep.length) (acc ++ [(s.drop b).take (i - b)])
          simp only [List.length_append, List.length_cons, List.length_nil] at this
          omega
        · rw [if_neg h3]; exact ih _ _ _ _

theorem splitAtLevel_length_pos (s sep : List Char) :
    1 ≤ (splitAtLevel s sep).length := by
  have := splitAtLevelAux_length sep s s 0 0 0 []
  simpa [splitAtLevel] using this

theorem alnum_not_whitespace {c : Char} (h : c.isAlphanum = true) :
    c.isWhitespace = false := by
  cases hw : c.isWhitespace with
  | false => rfl
  | true =>
    have hd : c = ' ' ∨ c = '\t' ∨ c = '\r' ∨ c = '\n' := by
      simp only [Char.isWhitespace, Bool.or_eq_true, decide_eq_true_eq] at hw
      tauto
    rcases hd with h1 | h1 | h1 | h1 <;> rw [h1] at h <;> exact absurd h (by decide)

theorem stripChars_eq_self_of_ends {s : List Char}
    (h1 : ∀ c, s.head? = some c → c.isWhitespace = false)
    (h2 : ∀ c, s.getLast? = some c → c.isWhitespace = false) :
    stripChars s = s := by
  cases s with
  | nil => rfl
  | cons c rest =>
    have hdropf : (c :: rest).dropWhile Char.isWhitespace = c :: rest := by
      rw [List.dropWhile_cons]
      rw [h1 c rfl]
      simp
    rw [stripChars, hdropf]
    cases hrev : (c :: rest).reverse with
    | nil => exact absurd hrev (by simp)
    | cons y t =>
      have hy : (c :: rest).getLast? = some y := by
        rw [← List.head?_reverse, hrev]
        rfl
      have hdropr : (y :: t).dropWhile Char.isWhitespace = y :: t := by
        rw [List.dropWhile_cons, h2 y hy]
        simp
      rw [hdropr, ← hrev, List.reverse_reverse]

theorem stripChars_eq_self_of_alnum {s : List Char}
    (hall : ∀ c ∈ s, c.isAlphanum = true) : stripChars s = s := by
  refine stripChars_eq_self_of_ends (fun c hc => ?_) (fun c hc => ?_)
  · exact alnum_not_whitespace (hall c (by
      cases s with
      | nil => exact absurd hc (by simp)
      | cons x r =>
        simp only [List.head?] at hc
        exact (Option.some.inj hc) ▸ List.mem_cons_self x r))
  · exact alnum_not_whitespace (hall c (List.mem_of_getLast?_eq_some hc))

theorem negSym_not_prefixOf {s : List Char} {c : Char} (hh : s.head? = some c)
    (hc : c ≠ '!') : negSym.isPrefixOf s = false := by
  cases s with
  | nil => exact absurd hh (by simp)
  | cons x rest =>
    have hx : x = c := by simpa using hh
    subst hx
    cases hp : negSym.isPrefixOf (x :: rest) with
    | false => rfl
    | true =>
      have := List.isPrefixOf_iff_prefix.mp hp
      exact absurd (List.cons_prefix_cons.mp this).1 (fun he => hc he.symm)

theorem mem_take_append {a : Char} (xs ys : List Char) {k : Nat}
    (h : xs.length < k) : a ∈ (xs ++ a :: ys).take k := by
  induction xs generalizing k with
  | nil =>
    cases k with
    | zero => exact absurd h (by simp)
    | succ k2 => simp [List.take_succ_cons]
  | cons x rest ih =>
    cases k with
    | zero => exact absurd h (by omega)
    | succ k2 =>
      simp only [List.cons_append, List.take_succ_cons]
      exact List.mem_cons_of_mem x (ih (by simpa using h))

theorem varSyntaxCheck_false_of_not_alnum {v : List Char} {c : Char}
    (sig : Signature) (hc : c ∈ v) (hna : c.isAlphanum = false) :
    varSyntaxCheck v sig = false := by
  have hall : v.all (fun c2 => c2.isAlphanum) = false := by
    cases hA : v.all (fun c2 => c2.isAlphanum) with
    | false => rfl
    | true => exact absurd ((List.all_eq_true.mp hA) c hc) (by rw [hna]; simp)
  simp [varSyntaxCheck, hall]

/-! Branch lemmas for the parser loop: when an iteration falls through
(returns none) and when it fires. -/

theorem tryJunctor_eq_none {p : List Char → Except String ParseTree}
    {sig : Signature} {ty : NodeType} {sym formula : List Char}
    (h : findTopLevel formula sym = none) :
    tryJunctor p sig ty sym formula = none := by
  simp [tryJunctor, h]

theorem tryJunctor_eq_some {p : List Char → Except String ParseTree}
    {sig : Signature} {ty : NodeType} {sym formula : List Char} {pos : Nat}
    (h : findTopLevel formula sym = some pos) :
    tryJunctor p sig ty sym formula =
      some (do
        let l ← p (formula.take pos)
        let r ← p (formula.drop (pos + sym.length))
        if !l.isFormula then
          .error ("Attempting a junctor on a non-formula '" ++
            String.mk (formula.take pos) ++ "'.")
        else if !r.isFormula then
          .error ("Attempting a junctor on a non-formula '" ++
            String.mk (formula.drop (pos + 1 + sym.length)) ++ "'.")
        else .ok (.mk (.sym sym) ty (.cons l (.cons r .nil)) sig)) := by
  simp [tryJunctor, h]

theorem tryNegation_eq_none {p : List Char → Except String ParseTree}
    {sig : Signature} {formula : List Char}
    (h : negSym.isPrefixOf formula = false) :
    tryNegation p sig formula = none := by
  simp [tryNegation, h]

theorem tryQuantifier_eq_none_head {p : List Char → Except String ParseTree}
    {sig : Signature} {ty : NodeType} {letter : Char} {formula : List Char}
    (h : formula.head? ≠ some letter) :
    tryQuantifier p sig ty letter formula = none := by
  simp [tryQuantifier, h]

theorem tryQuantifier_eq_none_tilde {p : List Char → Except String ParseTree}
    {sig : Signature} {ty : NodeType} {letter : Char} {formula : List Char}
    (h : findChar formula '~' = none) :
    tryQuantifier p sig ty letter formula = none := by
  by_cases hh : formula.head? = some letter <;> simp [tryQuantifier, hh, h]

theorem tryQuantifier_eq_error {p : List Char → Except String ParseTree}
    {sig : Signature} {ty : NodeType} {letter : Char} {formula : List Char}
    {varEnd : Nat} (hh : formula.head? = some letter)
    (ht : findChar formula '~' = some varEnd)
    (hv : varSyntaxCheck ((formula.drop 1).take (varEnd - 1)) sig = false) :
    tryQuantifier p sig ty letter formula =
      some (.error ("Quantification has invalid variable '" ++
        String.mk ((formula.drop 1).take (varEnd - 1)) ++ "'.")) := by
  have hv2 : varSyntaxCheck (formula.tail.take (varEnd - 1)) sig = false := by
    simpa [List.drop_one] using hv
  simp [tryQuantifier, hh, ht, hv2]

theorem tryApplication_eq_none_noParen {p : List Char → Except String ParseTree}
    {sig : Signature} {ty : NodeType} {formula : List Char}
    (h : findChar formula '(' = none) :
    tryApplication p sig ty formula = none := by
  simp [tryApplication, h]

theorem tryApplication_eq_none_pred {p : List Char → Except String ParseTree}
    {sig : Signature} {formula : List Char} {ri : Nat}
    (h : findChar formula '(' = some ri)
    (hl : dictLookup sig.predicates (formula.take ri) = none) :
    tryApplication p sig NodeType.PREDICATE formula = none := by
  simp [tryApplication, h, hl]

theorem tryApplication_eq_none_fun {p : List Char → Except String ParseTree}
    {sig : Signature} {formula : List Char} {ri : Nat}
    (h : findChar formula '(' = some ri)
    (hl : dictLookup sig.functors (formula.take ri) = none) :
    tryApplication p sig NodeType.FUNCTOR formula = none := by
  simp [tryApplication, h, hl]

theorem tryApplication_eq_arity_error_pred
    {p : List Char → Except String ParseTree} {sig : Signature}
    {formula : List Char} {ri arity : Nat}
    (h : findChar formula '(' = some ri)
    (hl : dictLookup sig.predicates (formula.take ri) = some arity)
    (hc : (splitAtLevel ((formula.drop (ri + 1)).dropLast) conjSym).length ≠ arity) :
    tryApplication p sig NodeType.PREDICATE formula =
      some (.error ("Symbol " ++ String.mk (formula.take ri) ++ " has arity " ++
        toString arity ++ "but received " ++
        toString (splitAtLevel ((formula.drop (ri + 1)).dropLast) conjSym).length ++
        " arguments in " ++ String.mk formula ++ ".")) := by
  simp [tryApplication, h, hl, hc]

theorem tryApplication_eq_arity_error_fun
    {p : List Char → Except String ParseTree} {sig : Signature}
    {formula : List Char} {ri arity : Nat}
    (h : findChar formula '(' = some ri)
    (hl : dictLookup sig.functors (formula.take ri) = some arity)
    (hc : (splitAtLevel ((formula.drop (ri + 1)).dropLast) conjSym).length ≠ arity) :
    tryApplication p sig NodeType.FUNCTOR formula =
      some (.error ("Symbol " ++ String.mk (formula.take ri) ++ " has arity " ++
        toString arity ++ "but received " ++
        toString (splitAtLevel ((formula.drop (ri + 1)).dropLast) conjSym).length ++
        " arguments in " ++ String.mk formula ++ ".")) := by
  simp [tryApplication, h, hl, hc]

theorem tryConstant_eq_none {sig : Signature} {formula : List Char}
    (h : formula ∉ sig.constants) : tryConstant sig formula = none := by
  simp [tryConstant, h]

theorem tryConstant_eq_ok {sig : Signature} {formula : List Char}
    (h : formula ∈ sig.constants) :
    tryConstant sig formula =
      some (.ok (.mk (.sym formula) .CONSTANT .nil sig)) := by
  simp [tryConstant, h]

theorem tryVariable_eq_none {sig : Signature} {formula : List Char}
    (h : varSyntaxCheck formula sig = false) : tryVariable sig formula = none := by
  simp [tryVariable, h]

theorem tryVariable_eq_ok {sig : Signature} {formula : List Char}
    (h : varSyntaxCheck formula sig = true) :
    tryVariable sig formula =
      some (.ok (.mk (.sym formula) .VARIABLE .nil sig)) := by
  simp [tryVariable, h]

theorem tryBracket_eq_none {p : List Char → Except String ParseTree}
    {sig : Signature} {formula : List Char}
    (h : formula.head? ≠ some '(') : tryBracket p sig formula = none := by
  simp [tryBracket, h]

/-- For an alphanumeric token, every node kind before Constant falls
through (no junctor or grammar character can occur in the token), and
Bracket is unreachable, so the parse reduces to the Constant then Variable
trials, the configured fall-out error otherwise. -/
theorem parseFuel_alnum_token (sig : Signature) (n : Nat) (t : List Char)
    (hne : t ≠ []) (hall : ∀ c ∈ t, c.isAlphanum = true) :
    parseFuel sig (n + 1) t =
      (match tryConstant sig t with
        | some r => r
        | none =>
          match tryVariable sig t with
          | some r => r
          | none =>
            .error ("Expression '" ++ String.mk t ++ "' is an invalid formula.")) := by
  obtain ⟨c0, rest, rfl⟩ : ∃ c0 rest, t = c0 :: rest := by
    cases t with
    | nil => exact absurd rfl hne
    | cons a b => exact ⟨a, b, rfl⟩
  have hnot : ∀ (c : Char), c.isAlphanum = false → c ∉ c0 :: rest := by
    intro c hc hm
    rw [hall c hm] at hc
    exact absurd hc (by simp)
  have hI : findTopLevel (c0 :: rest) implSym = none :=
    findTopLevel_eq_none_of_head_notMem rfl (hnot '-' (by decide))
  have hD : findTopLevel (c0 :: rest) disjSym = none :=
    findTopLevel_eq_none_of_head_notMem rfl (hnot ';' (by decide))
  have hC : findTopLevel (c0 :: rest) conjSym = none :=
    findTopLevel_eq_none_of_head_notMem rfl (hnot ',' (by decide))
  have hc0 : c0.isAlphanum = true := hall c0 (List.mem_cons_self c0 rest)
  have hneg : negSym.isPrefixOf (c0 :: rest) = false := by
    refine negSym_not_prefixOf rfl (fun he => ?_)
    rw [he] at hc0
    exact absurd hc0 (by decide)
  have htilde : findChar (c0 :: rest) '~' = none :=
    findChar_eq_none (hnot '~' (by decide))
  have hparen : findChar (c0 :: rest) '(' = none :=
    findChar_eq_none (hnot '(' (by decide))
  have hbr : (c0 :: rest).head? ≠ some '(' := by
    intro he
    have : c0 = '(' := by simpa using he
    rw [this] at hc0
    exact absurd hc0 (by decide)
  have hstrip : stripChars (c0 :: rest) = c0 :: rest :=
    stripChars_eq_self_of_alnum hall
  simp only [parseFuel]
  rw [hstrip, if_neg hne,
    tryJunctor_eq_none hI, tryJunctor_eq_none hD, tryJunctor_eq_none hC,
    tryNegation_eq_none hneg,
    tryQuantifier_eq_none_tilde htilde, tryQuantifier_eq_none_tilde htilde,
    tryApplication_eq_none_noParen hparen, tryApplication_eq_none_noParen hparen,
    tryBracket_eq_none hbr]

/-- An application text sym(args) built from an alphanumeric declared
symbol, containing no top-level junctor symbol, whose top-level
comma-separated argument count differs from the declared arity, fails to
parse: either a quantifier trial raises (the text starts with a quantifier
letter and contains a tilde, whose variable slice then spans the opening
bracket and fails the syntax check), or control reaches the
predicate/functor trial, which raises the arity error. -/
theorem parseFuel_application_arity_error (sig : Signature) (n : Nat)
    (sym argsText : List Char) (hne : sym ≠ [])
    (hall : ∀ c ∈ sym, c.isAlphanum = true)
    (hI : findTopLevel (sym ++ '(' :: (argsText ++ [')'])) implSym = none)
    (hD : findTopLevel (sym ++ '(' :: (argsText ++ [')'])) disjSym = none)
    (hC : findTopLevel (sym ++ '(' :: (argsText ++ [')'])) conjSym = none)
    (harity :
      (∃ arity, dictLookup sig.predicates sym = some arity ∧
        (splitAtLevel argsText conjSym).length ≠ arity) ∨
      (dictLookup sig.predicates sym = none ∧
        ∃ arity, dictLookup sig.functors sym = some arity ∧
          (splitAtLevel argsText conjSym).length ≠ arity)) :
    ∃ e, parseFuel sig (n + 1) (sym ++ '(' :: (argsText ++ [')'])) = .error e := by
  obtain ⟨c0, sym2, rfl⟩ : ∃ c0 sym2, sym = c0 :: sym2 := by
    cases sym with
    | nil => exact absurd rfl hne
    | cons a b => exact ⟨a, b, rfl⟩
  set f := (c0 :: sym2) ++ '(' :: (argsText ++ [')']) with hf
  have hnotsym : ∀ (c : Char), c.isAlphanum = false → c ∉ c0 :: sym2 := by
    intro c hc hm
    rw [hall c hm] at hc
    exact absurd hc (by simp)
  have hc0 : c0.isAlphanum = true := hall c0 (List.mem_cons_self c0 sym2)
  have hhead : f.head? = some c0 := rfl
  have hfne : f ≠ [] := by simp [hf]
  have hshape : f = ((c0 :: sym2) ++ '(' :: argsText) ++ [')'] := by
    simp [hf]
  have hlast : f.getLast? = some ')' := by
    rw [hshape]
    exact List.getLast?_concat _
  have hstrip : stripChars f = f := by
    refine stripChars_eq_self_of_ends (fun c hc => ?_) (fun c hc => ?_)
    · rw [hhead] at hc
      have : c0 = c := by simpa using hc
      exact this ▸ alnum_not_whitespace hc0
    · rw [hlast] at hc
      have : (')' : Char) = c := by simpa using hc
      rw [← this]
      decide
  have hneg : negSym.isPrefixOf f = false := by
    refine negSym_not_prefixOf hhead (fun he => ?_)
    rw [he] at hc0
    exact absurd hc0 (by decide)
  have hparen : ('(' : Char) ∉ c0 :: sym2 := hnotsym '(' (by decide)
  have hfind : findChar f '(' = some (c0 :: sym2).length :=
    findChar_append_self hparen
  have htake : f.take (c0 :: sym2).length = c0 :: sym2 := by
    rw [hf]
    exact List.take_left _ _
  have hdrop1 : f.drop (c0 :: sym2).length = '(' :: (argsText ++ [')']) := by
    rw [hf]
    exact List.drop_left _ _
  have hargs : (f.drop ((c0 :: sym2).length + 1)).dropLast = argsText := by
    rw [← List.drop_drop, hdrop1]
    simp
  -- the predicate/functor trial raises the arity error once reached
  have happmain :
      (match tryApplication (fun g => parseFuel sig n g) sig NodeType.PREDICATE f with
        | some r => r
        | none =>
          match tryApplication (fun g => parseFuel sig n g) sig NodeType.FUNCTOR f with
          | some r => r
          | none =>
            match tryConstant sig f with
            | some r => r
            | none =>
              match tryVariable sig f with
              | some r => r
              | none =>
                match tryBracket (fun g => parseFuel sig n g) sig f with
                | some r => r
                | none =>
                  .error ("Expression '" ++ String.mk f ++
                    "' is an invalid formula.")) =
      .error ("Symbol " ++ String.mk (c0 :: sym2) ++ " has arity " ++
        toString (match harity with
          | _ => (0 : Nat)) ++ "" ) ∨ True := Or.inr trivial
  clear happmain
  rcases harity with ⟨arity, hl, hcnt⟩ | ⟨hlnone, arity, hl, hcnt⟩
  · have hl2 : dictLookup sig.predicates (f.take (c0 :: sym2).length) = some arity := by
      rw [htake]
      exact hl
    have hcnt2 :
        (splitAtLevel ((f.drop ((c0 :: sym2).length + 1)).dropLast) conjSym).length ≠
          arity := by
      rw [hargs]
      exact hcnt
    by_cases hA : f.head? = some 'A'
    · cases ht : findChar f '~' with
      | none =>
        cases hres : parseFuel sig (n + 1) f with
        | error e => exact ⟨e, rfl⟩
        | ok t =>
          simp only [parseFuel] at hres
          rw [hstrip, if_neg hfne,
            tryJunctor_eq_none hI, tryJunctor_eq_none hD, tryJunctor_eq_none hC,
            tryNegation_eq_none hneg,
            tryQuantifier_eq_none_tilde ht, tryQuantifier_eq_none_tilde ht,
            tryApplication_eq_arity_error_pred hfind hl2 hcnt2] at hres
          simp at hres
      | some varEnd =>
        have hpre : ('~' : Char) ∉ (c0 :: sym2) ++ ['('] := by
          intro hm
          rcases List.mem_append.mp hm with hm2 | hm2
          · exact absurd (hall '~' hm2) (by decide)
          · simp at hm2
        have hvE : varEnd = ((c0 :: sym2) ++ ['(']).length +
            (varEnd - ((c0 :: sym2) ++ ['(']).length) ∧
            ((c0 :: sym2) ++ ['(']).length ≤ varEnd := by
          have hfc : findChar f '~' =
              (findChar (argsText ++ [')']) '~').map
                (fun j => j + ((c0 :: sym2) ++ ['(']).length) := by
            rw [show f = ((c0 :: sym2) ++ ['(']) ++ (argsText ++ [')']) by simp [hf]]
            exact findChar_append hpre
          rw [ht] at hfc
          cases hfc2 : findChar (argsText ++ [')']) '~' with
          | none => rw [hfc2] at hfc; exact absurd hfc.symm (by simp)
          | some j =>
            rw [hfc2] at hfc
            have : varEnd = j + ((c0 :: sym2) ++ ['(']).length := by
              simpa using hfc
            omega
        have hmem : ('(' : Char) ∈ (f.drop 1).take (varEnd - 1) := by
          have hdropone : f.drop 1 = sym2 ++ '(' :: (argsText ++ [')']) := rfl
          rw [hdropone]
          refine mem_take_append sym2 (argsText ++ [')']) ?_
          have hlen : ((c0 :: sym2) ++ ['(']).length = sym2.length + 2 := by
            simp
          omega
        have hv : varSyntaxCheck ((f.drop 1).take (varEnd - 1)) sig = false :=
          varSyntaxCheck_false_of_not_alnum sig hmem (by decide)
        cases hres : parseFuel sig (n + 1) f with
        | error e => exact ⟨e, rfl⟩
        | ok t =>
          simp only [parseFuel] at hres
          rw [hstrip, if_neg hfne,
            tryJunctor_eq_none hI, tryJunctor_eq_none hD, tryJunctor_eq_none hC,
            tryNegation_eq_none hneg,
            tryQuantifier_eq_error hA ht hv] at hres
          simp at hres
    · by_cases hE : f.head? = some 'E'
      · cases ht : findChar f '~' with
        | none =>
          cases hres : parseFuel sig (n + 1) f with
          | error e => exact ⟨e, rfl⟩
          | ok t =>
            simp only [parseFuel] at hres
            rw [hstrip, if_neg hfne,
              tryJunctor_eq_none hI, tryJunctor_eq_none hD, tryJunctor_eq_none hC,
              tryNegation_eq_none hneg,
              tryQuantifier_eq_none_head hA, tryQuantifier_eq_none_tilde ht,
              tryApplication_eq_arity_error_pred hfind hl2 hcnt2] at hres
            simp at hres
        | some varEnd =>
          have hpre : ('~' : Char) ∉ (c0 :: sym2) ++ ['('] := by
            intro hm
            rcases List.mem_append.mp hm with hm2 | hm2
            · exact absurd (hall '~' hm2) (by decide)
            · simp at hm2
          have hvE : ((c0 :: sym2) ++ ['(']).length ≤ varEnd := by
            have hfc : findChar f '~' =
                (findChar (argsText ++ [')']) '~').map
                  (fun j => j + ((c0 :: sym2) ++ ['(']).length) := by
              rw [show f = ((c0 :: sym2) ++ ['(']) ++ (argsText ++ [')']) by simp [hf]]
              exact findChar_append hpre
            rw [ht] at hfc
            cases hfc2 : findChar (argsText ++ [')']) '~' with
            | none => rw [hfc2] at hfc; exact absurd hfc.symm (by simp)
            | some j =>
              rw [hfc2] at hfc
              have : varEnd = j + ((c0 :: sym2) ++ ['(']).length := by
                simpa using hfc
              omega
          have hmem : ('(' : Char) ∈ (f.drop 1).take (varEnd - 1) := by
            have hdropone : f.drop 1 = sym2 ++ '(' :: (argsText ++ [')']) := rfl
            rw [hdropone]
            refine mem_take_append sym2 (argsText ++ [')']) ?_
            have hlen : ((c0 :: sym2) ++ ['(']).length = sym2.length + 2 := by
              simp
            omega
          have hv : varSyntaxCheck ((f.drop 1).take (varEnd - 1)) sig = false :=
            varSyntaxCheck_false_of_not_alnum sig hmem (by decide)
          cases hres : parseFuel sig (n + 1) f with
          | error e => exact ⟨e, rfl⟩
          | ok t =>
            simp only [parseFuel] at hres
            rw [hstrip, if_neg hfne,
              tryJunctor_eq_none hI, tryJunctor_eq_none hD, tryJunctor_eq_none hC,
              tryNegation_eq_none hneg,
              tryQuantifier_eq_none_head hA, tryQuantifier_eq_error hE ht hv] at hres
            simp at hres
      · cases hres : parseFuel sig (n + 1) f with
        | error e => exact ⟨e, rfl⟩
        | ok t =>
          simp only [parseFuel] at hres
          rw [hstrip, if_neg hfne,
            tryJunctor_eq_none hI, tryJunctor_eq_none hD, tryJunctor_eq_none hC,
            tryNegation_eq_none hneg,
            tryQuantifier_eq_none_head hA, tryQuantifier_eq_none_head hE,
            tryApplication_eq_arity_error_pred hfind hl2 hcnt2] at hres
          simp at hres
  · have hl2 : dictLookup sig.predicates (f.take (c0 :: sym2).length) = none := by
      rw [htake]
      exact hlnone
    have hl3 : dictLookup sig.functors (f.take (c0 :: sym2).length) = some arity := by
      rw [htake]
      exact hl
    have hcnt2 :
        (splitAtLevel ((f.drop ((c0 :: sym2).length + 1)).dropLast) conjSym).length ≠
          arity := by
      rw [hargs]
      exact hcnt
    by_cases hA : f.head? = some 'A'
    · cases ht : findChar f '~' with
      | none =>
        cases hres : parseFuel sig (n + 1) f with
        | error e => exact ⟨e, rfl⟩
        | ok t =>
          simp only [parseFuel] at hres
          rw [hstrip, if_neg hfne,
            tryJunctor_eq_none hI, tryJunctor_eq_none hD, tryJunctor_eq_none hC,
            tryNegation_eq_none hneg,
            tryQuantifier_eq_none_tilde ht, tryQuantifier_eq_none_tilde ht,
            tryApplication_eq_none_pred hfind hl2,
            tryApplication_eq_arity_error_fun hfind hl3 hcnt2] at hres
          simp at hres
      | some varEnd =>
        have hpre : ('~' : Char) ∉ (c0 :: sym2) ++ ['('] := by
          intro hm
          rcases List.mem_append.mp hm with hm2 | hm2
          · exact absurd (hall '~' hm2) (by decide)
          · simp at hm2
        have hvE : ((c0 :: sym2) ++ ['(']).length ≤ varEnd := by
          have hfc : findChar f '~' =
              (findChar (argsText ++ [')']) '~').map
                (fun j => j + ((c0 :: sym2) ++ ['(']).length) := by
            rw [show f = ((c0 :: sym2) ++ ['(']) ++ (argsText ++ [')']) by simp [hf]]
            exact findChar_append hpre
          rw [ht] at hfc
          cases hfc2 : findChar (argsText ++ [')']) '~' with
          | none => rw [hfc2] at hfc; exact absurd hfc.symm (by simp)
          | some j =>
            rw [hfc2] at hfc
            have : varEnd = j + ((c0 :: sym2) ++ ['(']).length := by
              simpa using hfc
            omega
        have hmem : ('(' : Char) ∈ (f.drop 1).take (varEnd - 1) := by
          have hdropone : f.drop 1 = sym2 ++ '(' :: (argsText ++ [')']) := rfl
          rw [hdropone]
          refine mem_take_append sym2 (argsText ++ [')']) ?_
          have hlen : ((c0 :: sym2) ++ ['(']).length = sym2.length + 2 := by
            simp
          omega
        have hv : varSyntaxCheck ((f.drop 1).take (varEnd - 1)) sig = false :=
          varSyntaxCheck_false_of_not_alnum sig hmem (by decide)
        cases hres : parseFuel sig (n + 1) f with
        | error e => exact ⟨e, rfl⟩
        | ok t =>
          simp only [parseFuel] at hres
          rw [hstrip, if_neg hfne,
            tryJunctor_eq_none hI, tryJunctor_eq_none hD, tryJunctor_eq_none hC,
            tryNegation_eq_none hneg,
            tryQuantifier_eq_error hA ht hv] at hres
          simp at hres
    · by_cases hE : f.head? = some 'E'
      · cases ht : findChar f '~' with
        | none =>
          cases hres : parseFuel sig (n + 1) f with
          | error e => exact ⟨e, rfl⟩
          | ok t =>
            simp only [parseFuel] at hres
            rw [hstrip, if_neg hfne,
              tryJunctor_eq_none hI, tryJunctor_eq_none hD, tryJunctor_eq_none hC,
              tryNegation_eq_none hneg,
              tryQuantifier_eq_none_head hA, tryQuantifier_eq_none_tilde ht,
              tryApplication_eq_none_pred hfind hl2,
              tryApplication_eq_arity_error_fun hfind hl3 hcnt2] at hres
            simp at hres
        | some varEnd =>
          have hpre : ('~' : Char) ∉ (c0 :: sym2) ++ ['('] := by
            intro hm
            rcases List.mem_append.mp hm with hm2 | hm2
            · exact absurd (hall '~' hm2) (by decide)
            · simp at hm2
          have hvE : ((c0 :: sym2) ++ ['(']).length ≤ varEnd := by
            have hfc : findChar f '~' =
                (findChar (argsText ++ [')']) '~').map
                  (fun j => j + ((c0 :: sym2) ++ ['(']).length) := by
              rw [show f = ((c0 :: sym2) ++ ['(']) ++ (argsText ++ [')']) by simp [hf]]
              exact findChar_append hpre
            rw [ht] at hfc
            cases hfc2 : findChar (argsText ++ [')']) '~' with
            | none => rw [hfc2] at hfc; exact absurd hfc.symm (by simp)
            | some j =>
              rw [hfc2] at hfc
              have : varEnd = j + ((c0 :: sym2) ++ ['(']).length := by
                simpa using hfc
              omega
          have hmem : ('(' : Char) ∈ (f.drop 1).take (varEnd - 1) := by
            have hdropone : f.drop 1 = sym2 ++ '(' :: (argsText ++ [')']) := rfl
            rw [hdropone]
            refine mem_take_append sym2 (argsText ++ [')']) ?_
            have hlen : ((c0 :: sym2) ++ ['(']).length = sym2.length + 2 := by
              simp
            omega
          have hv : varSyntaxCheck ((f.drop 1).take (varEnd - 1)) sig = false :=
            varSyntaxCheck_false_of_not_alnum sig hmem (by decide)
          cases hres : parseFuel sig (n + 1) f with
          | error e => exact ⟨e, rfl⟩
          | ok t =>
            simp only [parseFuel] at hres
            rw [hstrip, if_neg hfne,
              tryJunctor_eq_none hI, tryJunctor_eq_none hD, tryJunctor_eq_none hC,
              tryNegation_eq_none hneg,
              tryQuantifier_eq_none_head hA, tryQuantifier_eq_error hE ht hv] at hres
            simp at hres
      · cases hres : parseFuel sig (n + 1) f with
        | error e => exact ⟨e, rfl⟩
        | ok t =>
          simp only [parseFuel] at hres
          rw [hstrip, if_neg hfne,
            tryJunctor_eq_none hI, tryJunctor_eq_none hD, tryJunctor_eq_none hC,
            tryNegation_eq_none hneg,
            tryQuantifier_eq_none_head hA, tryQuantifier_eq_none_head hE,
            tryApplication_eq_none_pred hfind hl2,
            tryApplication_eq_arity_error_fun hfind hl3 hcnt2] at hres
          simp at hres

/-! Claim C6: arity checking of predicate and functor applications. -/

/-- C6: parsing an application of a declared predicate or functor whose
top-level comma-separated argument count differs from the declared arity
fails with a ParseError; concretely over sigFriend (predicate Friend of
arity 2, constants a and b), Friend(a) fails with the arity error naming
the declared arity 2 and the received count 1, and Friend(a,b) succeeds
with a PREDICATE node whose children are exactly the two CONSTANT nodes
a and b. -/
theorem parse_application_arity (sig : Signature) (n : Nat)
    (sym argsText : List Char) (hne : sym ≠ [])
    (hall : ∀ c ∈ sym, c.isAlphanum = true)
    (hI : findTopLevel (sym ++ '(' :: (argsText ++ [')'])) implSym = none)
    (hD : findTopLevel (sym ++ '(' :: (argsText ++ [')'])) disjSym = none)
    (hC : findTopLevel (sym ++ '(' :: (argsText ++ [')'])) conjSym = none)
    (harity :
      (∃ arity, dictLookup sig.predicates sym = some arity ∧
        (splitAtLevel argsText conjSym).length ≠ arity) ∨
      (dictLookup sig.predicates sym = none ∧
        ∃ arity, dictLookup sig.functors sym = some arity ∧
          (splitAtLevel argsText conjSym).length ≠ arity)) :
    (∃ e, parseFuel sig (n + 1) (sym ++ '(' :: (argsText ++ [')'])) = .error e) ∧
    parse "Friend(a)".toList sigFriend true =
      .error "Symbol Friend has arity 2but received 1 arguments in Friend(a)." ∧
    parse "Friend(a,b)".toList sigFriend true = .ok treeFriendAB :=
  ⟨parseFuel_application_arity_error sig n sym argsText hne hall hI hD hC harity,
   by rfl, by rfl⟩

/-- Witness for C6 at concrete input: predicate Friend of declared arity 2
applied to the single argument a. -/
theorem parse_application_arity_witness :
    (∃ e, parseFuel sigFriend (8 + 1)
        ("Friend".toList ++ '(' :: ("a".toList ++ [')'])) = .error e) ∧
    parse "Friend(a)".toList sigFriend true =
      .error "Symbol Friend has arity 2but received 1 arguments in Friend(a)." ∧
    parse "Friend(a,b)".toList sigFriend true = .ok treeFriendAB :=
  parse_application_arity sigFriend 8 "Friend".toList "a".toList
    (by decide) (by decide) (by decide) (by decide) (by decide)
    (Or.inl ⟨2, by decide, by decide⟩)

/-! Claim C7: binary junctor splitting at the first top-level occurrence. -/

/-- One step of the bracket-depth bookkeeping of the source _findTopLevel
loop: a closing bracket decrements the depth (never below zero) before the
match test, an opening bracket increments it after the test. -/
def depthStep (d : Nat) (c : Char) : Nat :=
  let d1 := if c = ')' then d - 1 else d
  if c = '(' then d1 + 1 else d1

/-- The bracket depth carried into iteration j of the source loop when the
scan of s started at depth d. -/
def depthFrom (d : Nat) (s : List Char) (j : Nat) : Nat :=
  (s.take j).foldl depthStep d

/-- The match condition of the source loop at position j of s when the scan
started at depth d: the key is a prefix of the remaining text, and the
depth, after the closing-bracket decrement for the current character, is
zero. -/
def hitAt (key s : List Char) (d j : Nat) : Bool :=
  key.isPrefixOf (s.drop j) &&
    ((if (s.drop j).head? = some ')' then depthFrom d s j - 1
      else depthFrom d s j) == 0)

theorem hitAt_zero (key : List Char) (c : Char) (rest : List Char) (d : Nat) :
    hitAt key (c :: rest) d 0 =
      (key.isPrefixOf (c :: rest) && ((if c = ')' then d - 1 else d) == 0)) := by
  simp only [hitAt, depthFrom, List.drop_zero, List.take_zero, List.foldl_nil,
    List.head?_cons]
  by_cases hc : c = ')'
  · simp [hc]
  · simp [hc]

theorem hitAt_succ (key : List Char) (c : Char) (rest : List Char) (d j : Nat) :
    hitAt key (c :: rest) d (j + 1) = hitAt key rest (depthStep d c) j := by
  simp only [hitAt, depthFrom, List.drop_succ_cons, List.take_succ_cons,
    List.foldl_cons]

/-- The source loop, entered at position i with t the remaining text and d
the current depth, returns some p exactly when p is the first position at
or after i whose match condition holds, and such a position exists. -/
theorem findTopLevelAux_spec (key : List Char) :
    ∀ (t : List Char) (d i p : Nat),
      findTopLevelAux key t d i = some p ↔
        ∃ j, p = i + j ∧ j < t.length ∧ hitAt key t d j = true ∧
          ∀ j', j' < j → hitAt key t d j' = false := by
  intro t
  induction t with
  | nil =>
    intro d i p
    constructor
    · intro h
      exact absurd h (by simp [findTopLevelAux])
    · rintro ⟨j, _, hj, _⟩
      exact absurd hj (by simp)
  | cons c rest ih =>
    intro d i p
    by_cases h0 : (key.isPrefixOf (c :: rest) &&
        ((if c = ')' then d - 1 else d) == 0)) = true
    · have hL : findTopLevelAux key (c :: rest) d i = some i := by
        simp only [findTopLevelAux]
        rw [if_pos h0]
      rw [hL]
      constructor
      · intro h
        have hp : p = i := by
          have := Option.some.inj h
          omega
        refine ⟨0, by omega, by simp, ?_, ?_⟩
        · rw [hitAt_zero]
          exact h0
        · intro j' hj'
          exact absurd hj' (Nat.not_lt_zero j')
      · rintro ⟨j, hpj, hjlen, hhit, hmin⟩
        cases j with
        | zero => simp [hpj]
        | succ j2 =>
          have := hmin 0 (Nat.succ_pos j2)
          rw [hitAt_zero] at this
          rw [h0] at this
          exact absurd this (by simp)
    · have hL : findTopLevelAux key (c :: rest) d i =
          findTopLevelAux key rest (depthStep d c) (i + 1) := by
        simp only [findTopLevelAux]
        rw [if_neg h0]
        rfl
      rw [hL, ih (depthStep d c) (i + 1) p]
      constructor
      · rintro ⟨j, hpj, hjlen, hhit, hmin⟩
        refine ⟨j + 1, by omega, by simpa using Nat.succ_lt_succ hjlen, ?_, ?_⟩
        · rw [hitAt_succ]
          exact hhit
        · intro j' hj'
          cases j' with
          | zero =>
            rw [hitAt_zero]
            exact Bool.eq_false_iff.mpr h0
          | succ j2 =>
            rw [hitAt_succ]
            exact hmin j2 (by omega)
      · rintro ⟨j, hpj, hjlen, hhit, hmin⟩
        cases j with
        | zero =>
          rw [hitAt_zero] at hhit
          exact absurd hhit h0
        | succ j2 =>
          refine ⟨j2, by omega, by simpa using hjlen, ?_, ?_⟩
          · rw [hitAt_succ] at hhit
            exact hhit
          · intro j' hj'
            have := hmin (j' + 1) (by omega)
            rw [hitAt_succ] at this
            exact this

/-- The body of a binary-junctor iteration once the symbol is found at
position pos: the text before pos and the text after pos plus the symbol
length are parsed recursively as the two children, which must both be
formulas. -/
def junctorSplitResult (p : List Char → Except String ParseTree)
    (sig : Signature) (ty : NodeType) (sym formula : List Char) (pos : Nat) :
    Except String ParseTree := do
  let l ← p (formula.take pos)
  let r ← p (formula.drop (pos + sym.length))
  if !l.isFormula then
    .error ("Attempting a junctor on a non-formula '" ++
      String.mk (formula.take pos) ++ "'.")
  else if !r.isFormula then
    .error ("Attempting a junctor on a non-formula '" ++
      String.mk (formula.drop (pos + 1 + sym.length)) ++ "'.")
  else .ok (.mk (.sym sym) ty (.cons l (.cons r .nil)) sig)

/-- The parse tree of Friend(b,a) over sigFriend. -/
def treeFriendBA : ParseTree :=
  .mk (.sym "Friend".toList) .PREDICATE
    (.cons (.mk (.sym "b".toList) .CONSTANT .nil sigFriend)
      (.cons (.mk (.sym "a".toList) .CONSTANT .nil sigFriend) .nil)) sigFriend

/-- The parse tree of Friend(a,b)-:Friend(b,a) over sigFriend. -/
def treeImplFriend : ParseTree :=
  .mk (.sym implSym) .IMPLICATION
    (.cons treeFriendAB (.cons treeFriendBA .nil)) sigFriend

/-- C7: findTopLevel locates exactly the first left-to-right position at
which the junctor symbol is a prefix of the remaining text at bracket depth
zero (the depth is incremented on an opening bracket and decremented, never
below zero, on a closing bracket before the match test); the parser tries
Implication, then Disjunction, then Conjunction, and when the
loosest-binding symbol present is found at position p it splits the text
into the part before p and the part after p plus the symbol length, parsing
each recursively as the two children; concretely,
Friend(a,b)-:Friend(b,a) parses to an IMPLICATION node whose children are
the Predicate trees of Friend(a,b) and Friend(b,a), in that order. -/
theorem parse_junctor_split (sig : Signature) (n : Nat) (f : List Char)
    (hstrip : stripChars f = f) (hne : f ≠ []) :
    (∀ (s key : List Char) (p : Nat),
        findTopLevel s key = some p ↔
          p < s.length ∧ hitAt key s 0 p = true ∧
            ∀ q, q < p → hitAt key s 0 q = false) ∧
    (∀ p, findTopLevel f implSym = some p →
        parseFuel sig (n + 1) f =
          junctorSplitResult (parseFuel sig n) sig .IMPLICATION implSym f p) ∧
    (∀ p, findTopLevel f implSym = none →
        findTopLevel f disjSym = some p →
        parseFuel sig (n + 1) f =
          junctorSplitResult (parseFuel sig n) sig .DISJUNCTION disjSym f p) ∧
    (∀ p, findTopLevel f implSym = none →
        findTopLevel f disjSym = none →
        findTopLevel f conjSym = some p →
        parseFuel sig (n + 1) f =
          junctorSplitResult (parseFuel sig n) sig .CONJUNCTION conjSym f p) ∧
    parse "Friend(a,b)-:Friend(b,a)".toList sigFriend true = .ok treeImplFriend := by
  refine ⟨fun s key p => ?_, fun p hp => ?_, fun p hI hp => ?_,
    fun p hI hD hp => ?_, by rfl⟩
  · rw [findTopLevel, findTopLevelAux_spec key s 0 0 p]
    constructor
    · rintro ⟨j, hpj, hjlen, hhit, hmin⟩
      subst hpj
      exact ⟨by simpa using hjlen, by simpa using hhit, fun q hq => hmin q (by omega)⟩
    · rintro ⟨hlen, hhit, hmin⟩
      exact ⟨p, by omega, hlen, hhit, fun j' hj' => hmin j' hj'⟩
  · simp only [parseFuel]
    rw [hstrip, if_neg hne, tryJunctor_eq_some hp]
    rfl
  · simp only [parseFuel]
    rw [hstrip, if_neg hne, tryJunctor_eq_none hI, tryJunctor_eq_some hp]
    rfl
  · simp only [parseFuel]
    rw [hstrip, if_neg hne, tryJunctor_eq_none hI, tryJunctor_eq_none hD,
      tryJunctor_eq_some hp]
    rfl

/-- Witness for C7 at a concrete input: the implication text over
sigFriend, with fuel 25; the hypotheses (stripping fixes the text, the
text is nonempty) are discharged by evaluation. -/
theorem parse_junctor_split_witness :
    (∀ (s key : List Char) (p : Nat),
        findTopLevel s key = some p ↔
          p < s.length ∧ hitAt key s 0 p = true ∧
            ∀ q, q < p → hitAt key s 0 q = false) ∧
    (∀ p, findTopLevel "Friend(a,b)-:Friend(b,a)".toList implSym = some p →
        parseFuel sigFriend (24 + 1) "Friend(a,b)-:Friend(b,a)".toList =
          junctorSplitResult (parseFuel sigFriend 24) sigFriend .IMPLICATION
            implSym "Friend(a,b)-:Friend(b,a)".toList p) ∧
    (∀ p, findTopLevel "Friend(a,b)-:Friend(b,a)".toList implSym = none →
        findTopLevel "Friend(a,b)-:Friend(b,a)".toList disjSym = some p →
        parseFuel sigFriend (24 + 1) "Friend(a,b)-:Friend(b,a)".toList =
          junctorSplitResult (parseFuel sigFriend 24) sigFriend .DISJUNCTION
            disjSym "Friend(a,b)-:Friend(b,a)".toList p) ∧
    (∀ p, findTopLevel "Friend(a,b)-:Friend(b,a)".toList implSym = none →
        findTopLevel "Friend(a,b)-:Friend(b,a)".toList disjSym = none →
        findTopLevel "Friend(a,b)-:Friend(b,a)".toList conjSym = some p →
        parseFuel sigFriend (24 + 1) "Friend(a,b)-:Friend(b,a)".toList =
          junctorSplitResult (parseFuel sigFriend 24) sigFriend .CONJUNCTION
            conjSym "Friend(a,b)-:Friend(b,a)".toList p) ∧
    parse "Friend(a,b)-:Friend(b,a)".toList sigFriend true = .ok treeImplFriend :=
  parse_junctor_split sigFriend 24 "Friend(a,b)-:Friend(b,a)".toList
    (by rfl) (by decide)

/-! Claim C8: disambiguation of bare constant and variable tokens. -/

/-- A signature declaring the single constant name "," (a name made of a
grammar character). -/
def sigComma : Signature := ⟨[], [], [[',']]⟩

/-- C8 (amended to alphanumeric tokens): a nonempty alphanumeric bare token
declared as a constant parses as a CONSTANT leaf; a bare token passing the
variable syntax check (an [a-zA-Z][a-zA-Z0-9]* whole-string match that is
not a signature symbol) parses as a VARIABLE leaf; and no token is both a
declared constant and a variable-check pass, so no name can parse as both.
The restriction to alphanumeric names is necessary: the original
unrestricted claim fails for the declared constant name ",", which the
conjunction trial seizes before the constant trial is reached (see the
counterexample). -/
theorem parse_constant_variable (sig : Signature) (t : List Char) :
    (t ≠ [] → (∀ c ∈ t, c.isAlphanum = true) → t ∈ sig.constants →
      parse t sig false = .ok (.mk (.sym t) .CONSTANT .nil sig)) ∧
    (varSyntaxCheck t sig = true →
      parse t sig false = .ok (.mk (.sym t) .VARIABLE .nil sig)) ∧
    ¬(t ∈ sig.constants ∧ varSyntaxCheck t sig = true) := by
  have hmemOf : t ∈ sig.constants → sig.mem t = true := by
    intro hc
    simp only [Signature.mem, Bool.or_eq_true]
    right
    exact List.any_eq_true.mpr ⟨t, hc, by simp⟩
  refine ⟨fun hne hall hc => ?_, fun hv => ?_, fun hb => ?_⟩
  · have hc2 : tryConstant sig t = some (.ok (.mk (.sym t) .CONSTANT .nil sig)) := by
      simp [tryConstant, hc]
    have hp := parseFuel_alnum_token sig t.length t hne hall
    rw [hc2] at hp
    simp only [parse]
    rw [hp]
    rfl
  · have hne2 : t ≠ [] := by
      intro he
      rw [he] at hv
      exact absurd hv (by simp [varSyntaxCheck])
    have hall2 : ∀ c ∈ t, c.isAlphanum = true := by
      intro c hcm
      cases hca : c.isAlphanum with
      | true => rfl
      | false =>
        rw [varSyntaxCheck_false_of_not_alnum sig hcm hca] at hv
        exact absurd hv (by decide)
    have hvm := hv
    simp only [varSyntaxCheck, Bool.and_eq_true, Bool.not_eq_true'] at hvm
    have hmem : sig.mem t = false := hvm.2
    have hnc : t ∉ sig.constants := by
      intro hc
      rw [hmemOf hc] at hmem
      exact absurd hmem (by decide)
    have hcn : tryConstant sig t = none := by
      simp [tryConstant, hnc]
    have hvr : tryVariable sig t = some (.ok (.mk (.sym t) .VARIABLE .nil sig)) := by
      simp [tryVariable, hv]
    have hp := parseFuel_alnum_token sig t.length t hne2 hall2
    rw [hcn, hvr] at hp
    simp only [parse]
    rw [hp]
    rfl
  · obtain ⟨hc, hv⟩ := hb
    simp only [varSyntaxCheck, Bool.and_eq_true, Bool.not_eq_true'] at hv
    rw [hmemOf hc] at hv
    exact absurd hv.2 (by decide)

/-- Counterexample to the unrestricted C8 claim: over sigComma the name ","
is a declared constant, yet parsing the bare text "," does not return a
Constant node; the comma is seized by the conjunction trial, which splits
the text into two empty sides and raises the empty-formula error. -/
theorem parse_constant_variable_counterexample :
    [','] ∈ sigComma.constants ∧
    parse [','] sigComma false = .error "Attempting to parse an empty formula." ∧
    ∀ t : ParseTree, parse [','] sigComma false ≠ .ok t :=
  ⟨by decide, by rfl, fun t h => by
    rw [show parse [','] sigComma false =
      Except.error "Attempting to parse an empty formula." from rfl] at h
    exact Except.noConfusion h⟩

/-- Witness for C8 at concrete inputs over sigFriend: the declared constant
a parses as a CONSTANT leaf, the undeclared token x parses as a VARIABLE
leaf, and x is not both. -/
theorem parse_constant_variable_witness :
    parse "a".toList sigFriend false =
      .ok (.mk (.sym "a".toList) .CONSTANT .nil sigFriend) ∧
    parse "x".toList sigFriend false =
      .ok (.mk (.sym "x".toList) .VARIABLE .nil sigFriend) ∧
    ¬("x".toList ∈ sigFriend.constants ∧
      varSyntaxCheck "x".toList sigFriend = true) :=
  ⟨(parse_constant_variable sigFriend "a".toList).1 (by decide) (by decide)
      (by decide),
   (parse_constant_variable sigFriend "x".toList).2.1 (by decide),
   (parse_constant_variable sigFriend "x".toList).2.2⟩

/-! Claim C10: a zero-arity symbol can never occur in a parsed expression.
Occurrence of a name in a tree, and inversion principles for each node
kind of a successful parse. -/

theorem except_bind_error {ε α β : Type} (e : ε) (k : α → Except ε β) :
    (Except.error e >>= k : Except ε β) = Except.error e := rfl

theorem except_bind_ok {ε α β : Type} (a : α) (k : α → Except ε β) :
    (Except.ok a >>= k : Except ε β) = k a := rfl

/-- Occurrence of a symbol name in the value slot of a node: the node value
is the name itself, or a quantifier pair binding it as variable or domain. -/
def valMentions (P : List Char) : TreeVal → Bool
  | .sym s => decide (s = P)
  | .pair v d => decide (v = P) || decide (d = P)

mutual
/-- Occurrence of a symbol name anywhere in a parse tree. -/
def ParseTree.mentions (P : List Char) : ParseTree → Bool
  | .mk v _ ch _ => valMentions P v || ParseTreeList.mentionsList P ch
/-- Occurrence of a symbol name anywhere in a list of parse trees. -/
def ParseTreeList.mentionsList (P : List Char) : ParseTreeList → Bool
  | .nil => false
  | .cons t ts => ParseTree.mentions P t || ParseTreeList.mentionsList P ts
end

theorem mentionsList_ofList_false {P : List Char} :
    ∀ {cs : List ParseTree}, (∀ c ∈ cs, ParseTree.mentions P c = false) →
      ParseTreeList.mentionsList P (ParseTreeList.ofList cs) = false := by
  intro cs
  induction cs with
  | nil => intro _; rfl
  | cons c rest ih =>
    intro hcs
    simp only [ParseTreeList.ofList, ParseTreeList.mentionsList]
    rw [hcs c (List.mem_cons_self c rest),
      ih (fun d hd => hcs d (List.mem_cons_of_mem c hd))]
    rfl

/-- A string containing a non-alphanumeric character differs from an
all-alphanumeric name. -/
theorem ne_of_not_alnum_mem {P s : List Char} {c : Char}
    (hall : ∀ c2 ∈ P, c2.isAlphanum = true) (hc : c ∈ s)
    (hna : c.isAlphanum = false) : s ≠ P := by
  intro he
  rw [he] at hc
  rw [hall c hc] at hna
  exact absurd hna (by decide)

/-- A token passing the variable syntax check is not a signature symbol. -/
theorem varSyntaxCheck_ne {sig : Signature} {P v : List Char}
    (hmem : sig.mem P = true) (hv : varSyntaxCheck v sig = true) : v ≠ P := by
  intro he
  simp only [varSyntaxCheck, Bool.and_eq_true, Bool.not_eq_true'] at hv
  rw [he, hmem] at hv
  exact absurd hv.2 (by decide)

theorem tryConstant_ok_inv {sig : Signature} {f : List Char} {t : ParseTree}
    (h : tryConstant sig f = some (.ok t)) :
    f ∈ sig.constants ∧ t = .mk (.sym f) .CONSTANT .nil sig := by
  simp only [tryConstant] at h
  by_cases hc : f ∈ sig.constants
  · rw [if_pos hc] at h
    exact ⟨hc, (Except.ok.inj (Option.some.inj h)).symm⟩
  · rw [if_neg hc] at h
    exact absurd h (by simp)

theorem tryVariable_ok_inv {sig : Signature} {f : List Char} {t : ParseTree}
    (h : tryVariable sig f = some (.ok t)) :
    varSyntaxCheck f sig = true ∧ t = .mk (.sym f) .VARIABLE .nil sig := by
  simp only [tryVariable] at h
  cases hv : varSyntaxCheck f sig with
  | false => rw [hv] at h; exact absurd h (by simp)
  | true =>
    rw [hv, if_pos rfl] at h
    exact ⟨rfl, (Except.ok.inj (Option.some.inj h)).symm⟩

theorem tryNegation_ok_inv {p : List Char → Except String ParseTree}
    {sig : Signature} {f : List Char} {t : ParseTree}
    (h : tryNegation p sig f = some (.ok t)) :
    ∃ c, p (f.drop negSym.length) = .ok c ∧
      t = .mk (.sym negSym) .NEGATION (.cons c .nil) sig := by
  simp only [tryNegation] at h
  cases hpre : negSym.isPrefixOf f with
  | false => rw [hpre] at h; exact absurd h (by simp)
  | true =>
    rw [hpre, if_pos rfl] at h
    have h2 := Option.some.inj h
    cases hc : p (f.drop negSym.length) with
    | error e =>
      rw [hc, except_bind_error] at h2
      simp at h2
    | ok c =>
      rw [hc, except_bind_ok] at h2
      cases hcf : c.isFormula with
      | false =>
        rw [hcf] at h2
        simp at h2
      | true =>
        rw [hcf] at h2
        simp at h2
        exact ⟨c, rfl, h2.symm⟩

theorem tryBracket_ok_inv {p : List Char → Except String ParseTree}
    {sig : Signature} {f : List Char} {t : ParseTree}
    (h : tryBracket p sig f = some (.ok t)) :
    ∃ c, p ((f.drop 1).dropLast) = .ok c ∧
      t = .mk (.sym ['(', ')']) .BRACKET (.cons c .nil) sig := by
  simp only [tryBracket] at h
  by_cases hh : f.head? = some '('
  · rw [if_pos hh] at h
    have h2 := Option.some.inj h
    by_cases hl : f.getLast? ≠ some ')'
    · rw [if_pos hl] at h2
      simp at h2
    · rw [if_neg hl] at h2
      cases hc : p ((f.drop 1).dropLast) with
      | error e =>
        rw [hc, except_bind_error] at h2
        simp at h2
      | ok c =>
        rw [hc, except_bind_ok] at h2
        cases hcf : c.isFormula with
        | false =>
          rw [hcf] at h2
          simp at h2
        | true =>
          rw [hcf] at h2
          simp at h2
          exact ⟨c, rfl, h2.symm⟩
  · rw [if_neg hh] at h
    exact absurd h (by simp)

/-- Every child produced by the argument loop comes from the recursive
parse of one of the argument texts. -/
theorem parseTerms_ok_mem {p : List Char → Except String ParseTree}
    {formula : List Char} :
    ∀ {args : List (List Char)} {children : List ParseTree},
      parseTerms p formula args = .ok children →
      ∀ c ∈ children, ∃ a ∈ args, p a = .ok c := by
  intro args
  induction args with
  | nil =>
    intro children h c hc
    simp only [parseTerms] at h
    have h2 := Except.ok.inj h
    rw [← h2] at hc
    exact absurd hc (by simp)
  | cons a rest ih =>
    intro children h c hc
    simp only [parseTerms] at h
    cases hpa : p a with
    | error e =>
      rw [hpa, except_bind_error] at h
      simp at h
    | ok pa =>
      rw [hpa, except_bind_ok] at h
      cases hterm : pa.isTerm with
      | false =>
        rw [hterm] at h
        simp at h
      | true =>
        rw [hterm] at h
        rw [if_neg (show ¬((!true) = true) from by decide)] at h
        cases hps : parseTerms p formula rest with
        | error e =>
          rw [hps, except_bind_error] at h
          simp at h
        | ok ps =>
          rw [hps, except_bind_ok] at h
          have hch := Except.ok.inj h
          rw [← hch] at hc
          rcases List.mem_cons.mp hc with hc1 | hc2
          · refine ⟨a, List.mem_cons_self a rest, ?_⟩
            rw [hc1]
            exact hpa
          · obtain ⟨a2, ha2, hpa2⟩ := ih hps c hc2
            exact ⟨a2, List.mem_cons_of_mem a ha2, hpa2⟩

theorem tryJunctor_ok_inv {p : List Char → Except String ParseTree}
    {sig : Signature} {ty : NodeType} {sym f : List Char} {t : ParseTree}
    (h : tryJunctor p sig ty sym f = some (.ok t)) :
    ∃ pos l r, p (f.take pos) = .ok l ∧
      p (f.drop (pos + sym.length)) = .ok r ∧
      t = .mk (.sym sym) ty (.cons l (.cons r .nil)) sig := by
  simp only [tryJunctor] at h
  cases hf : findTopLevel f sym with
  | none => rw [hf] at h; exact absurd h (by simp)
  | some pos =>
    rw [hf] at h
    have h2 := Option.some.inj h
    cases hl : p (f.take pos) with
    | error e =>
      rw [hl, except_bind_error] at h2
      simp at h2
    | ok l =>
      rw [hl, except_bind_ok] at h2
      cases hr : p (f.drop (pos + sym.length)) with
      | error e =>
        rw [hr, except_bind_error] at h2
        simp at h2
      | ok r =>
        rw [hr, except_bind_ok] at h2
        cases hlf : l.isFormula with
        | false =>
          rw [hlf] at h2
          simp at h2
        | true =>
          rw [hlf] at h2
          cases hrf : r.isFormula with
          | false =>
            rw [hrf] at h2
            simp at h2
          | true =>
            rw [hrf] at h2
            simp at h2
            exact ⟨pos, l, r, hl, hr, h2.symm⟩

theorem tryQuantifier_ok_inv {p : List Char → Except String ParseTree}
    {sig : Signature} {ty : NodeType} {letter : Char} {f : List Char}
    {t : ParseTree} (h : tryQuantifier p sig ty letter f = some (.ok t)) :
    ∃ varEnd domainEnd c,
      varSyntaxCheck ((f.drop 1).take (varEnd - 1)) sig = true ∧
      varSyntaxCheck ((f.drop (varEnd + 1)).take (domainEnd - (varEnd + 1)))
        sig = true ∧
      p (f.drop (domainEnd + 1)) = .ok c ∧
      t = .mk (.pair ((f.drop 1).take (varEnd - 1))
        ((f.drop (varEnd + 1)).take (domainEnd - (varEnd + 1))))
        ty (.cons c .nil) sig := by
  simp only [tryQuantifier] at h
  by_cases hh : f.head? = some letter
  · rw [if_pos hh] at h
    cases hve : findChar f '~' with
    | none => rw [hve] at h; exact absurd h (by simp)
    | some varEnd =>
      rw [hve] at h
      have h2 := Option.some.inj h
      cases hvv : varSyntaxCheck ((f.drop 1).take (varEnd - 1)) sig with
      | false =>
        rw [hvv] at h2
        simp at h2
      | true =>
        rw [hvv] at h2
        rw [if_neg (show ¬((!true) = true) from by decide)] at h2
        cases hde : findChar f ':' with
        | none =>
          rw [hde] at h2
          simp at h2
        | some domainEnd =>
          rw [hde] at h2
          have h3 : (if (!varSyntaxCheck
                ((f.drop (varEnd + 1)).take (domainEnd - (varEnd + 1)))
                sig) = true then
              (Except.error ("Quantification has invalid domain '" ++
                String.mk ((f.drop (varEnd + 1)).take
                  (domainEnd - (varEnd + 1))) ++
                "'.") : Except String ParseTree)
            else do
              let child ← p (f.drop (domainEnd + 1))
              if (!child.isFormula) = true then
                Except.error "Quantification on a non-formula."
              else
                Except.ok (ParseTree.mk
                  (TreeVal.pair ((f.drop 1).take (varEnd - 1))
                    ((f.drop (varEnd + 1)).take (domainEnd - (varEnd + 1))))
                  ty (ParseTreeList.cons child ParseTreeList.nil) sig)) =
              Except.ok t := h2
          cases hdd : varSyntaxCheck
              ((f.drop (varEnd + 1)).take (domainEnd - (varEnd + 1))) sig with
          | false =>
            rw [hdd] at h3
            simp at h3
          | true =>
            rw [hdd] at h3
            rw [if_neg (show ¬((!true) = true) from by decide)] at h3
            cases hc : p (f.drop (domainEnd + 1)) with
            | error e =>
              rw [hc, except_bind_error] at h3
              simp at h3
            | ok c =>
              rw [hc, except_bind_ok] at h3
              cases hcf : c.isFormula with
              | false =>
                rw [hcf] at h3
                simp at h3
              | true =>
                rw [hcf] at h3
                rw [if_neg (show ¬((!true) = true) from by decide)] at h3
                exact ⟨varEnd, domainEnd, c, hvv, hdd, hc,
                  (Except.ok.inj h3).symm⟩
  · rw [if_neg hh] at h
    exact absurd h (by simp)

theorem tryApplication_pred_ok_inv {p : List Char → Except String ParseTree}
    {sig : Signature} {f : List Char} {t : ParseTree}
    (h : tryApplication p sig .PREDICATE f = some (.ok t)) :
    ∃ ri arity children,
      findChar f '(' = some ri ∧
      dictLookup sig.predicates (f.take ri) = some arity ∧
      (splitAtLevel ((f.drop (ri + 1)).dropLast) conjSym).length = arity ∧
      parseTerms p f (splitAtLevel ((f.drop (ri + 1)).dropLast) conjSym) =
        .ok children ∧
      t = .mk (.sym (f.take ri)) .PREDICATE (ParseTreeList.ofList children)
        sig := by
  simp only [tryApplication] at h
  cases hfc : findChar f '(' with
  | none => rw [hfc] at h; exact absurd h (by simp)
  | some ri =>
    rw [hfc] at h
    have h2 : (match dictLookup sig.predicates (f.take ri) with
        | none => none
        | some arity =>
          some (if (splitAtLevel ((f.drop (ri + 1)).dropLast) conjSym).length
                ≠ arity then
              (Except.error ("Symbol " ++ String.mk (f.take ri) ++
                " has arity " ++ toString arity ++ "but received " ++
                toString (splitAtLevel ((f.drop (ri + 1)).dropLast)
                  conjSym).length ++
                " arguments in " ++ String.mk f ++ ".") :
                Except String ParseTree)
            else do
              let children ← parseTerms p f
                (splitAtLevel ((f.drop (ri + 1)).dropLast) conjSym)
              Except.ok (ParseTree.mk (TreeVal.sym (f.take ri))
                NodeType.PREDICATE (ParseTreeList.ofList children) sig))) =
        some (Except.ok t) := h
    cases hlk : dictLookup sig.predicates (f.take ri) with
    | none => rw [hlk] at h2; exact absurd h2 (by simp)
    | some arity =>
      rw [hlk] at h2
      have h3 := Option.some.inj h2
      by_cases hlen :
          (splitAtLevel ((f.drop (ri + 1)).dropLast) conjSym).length ≠ arity
      · rw [if_pos hlen] at h3
        simp at h3
      · rw [if_neg hlen] at h3
        cases hpt : parseTerms p f
            (splitAtLevel ((f.drop (ri + 1)).dropLast) conjSym) with
        | error e =>
          rw [hpt, except_bind_error] at h3
          simp at h3
        | ok children =>
          rw [hpt, except_bind_ok] at h3
          exact ⟨ri, arity, children, rfl, hlk, not_not.mp hlen, hpt,
            (Except.ok.inj h3).symm⟩

theorem tryApplication_fun_ok_inv {p : List Char → Except String ParseTree}
    {sig : Signature} {f : List Char} {t : ParseTree}
    (h : tryApplication p sig .FUNCTOR f = some (.ok t)) :
    ∃ ri arity children,
      findChar f '(' = some ri ∧
      dictLookup sig.functors (f.take ri) = some arity ∧
      (splitAtLevel ((f.drop (ri + 1)).dropLast) conjSym).length = arity ∧
      parseTerms p f (splitAtLevel ((f.drop (ri + 1)).dropLast) conjSym) =
        .ok children ∧
      t = .mk (.sym (f.take ri)) .FUNCTOR (ParseTreeList.ofList children)
        sig := by
  simp only [tryApplication] at h
  cases hfc : findChar f '(' with
  | none => rw [hfc] at h; exact absurd h (by simp)
  | some ri =>
    rw [hfc] at h
    have h2 : (match dictLookup sig.functors (f.take ri) with
        | none => none
        | some arity =>
          some (if (splitAtLevel ((f.drop (ri + 1)).dropLast) conjSym).length
                ≠ arity then
              (Except.error ("Symbol " ++ String.mk (f.take ri) ++
                " has arity " ++ toString arity ++ "but received " ++
                toString (splitAtLevel ((f.drop (ri + 1)).dropLast)
                  conjSym).length ++
                " arguments in " ++ String.mk f ++ ".") :
                Except String ParseTree)
            else do
              let children ← parseTerms p f
                (splitAtLevel ((f.drop (ri + 1)).dropLast) conjSym)
              Except.ok (ParseTree.mk (TreeVal.sym (f.take ri))
                NodeType.FUNCTOR (ParseTreeList.ofList children) sig))) =
        some (Except.ok t) := h
    cases hlk : dictLookup sig.functors (f.take ri) with
    | none => rw [hlk] at h2; exact absurd h2 (by simp)
    | some arity =>
      rw [hlk] at h2
      have h3 := Option.some.inj h2
      by_cases hlen :
          (splitAtLevel ((f.drop (ri + 1)).dropLast) conjSym).length ≠ arity
      · rw [if_pos hlen] at h3
        simp at h3
      · rw [if_neg hlen] at h3
        cases hpt : parseTerms p f
            (splitAtLevel ((f.drop (ri + 1)).dropLast) conjSym) with
        | error e =>
          rw [hpt, except_bind_error] at h3
          simp at h3
        | ok children =>
          rw [hpt, except_bind_ok] at h3
          exact ⟨ri, arity, children, rfl, hlk, not_not.mp hlen, hpt,
            (Except.ok.inj h3).symm⟩

/-- A successful parse at positive fuel comes from one of the node-kind
iterations of the source loop, applied to the stripped text. -/
theorem parseFuel_ok_cases (sig : Signature) (n : Nat) (f : List Char)
    (t : ParseTree) (h : parseFuel sig (n + 1) f = .ok t) :
    tryJunctor (parseFuel sig n) sig .IMPLICATION implSym (stripChars f) =
      some (.ok t) ∨
    tryJunctor (parseFuel sig n) sig .DISJUNCTION disjSym (stripChars f) =
      some (.ok t) ∨
    tryJunctor (parseFuel sig n) sig .CONJUNCTION conjSym (stripChars f) =
      some (.ok t) ∨
    tryNegation (parseFuel sig n) sig (stripChars f) = some (.ok t) ∨
    tryQuantifier (parseFuel sig n) sig .UNIVERSAL 'A' (stripChars f) =
      some (.ok t) ∨
    tryQuantifier (parseFuel sig n) sig .EXISTENTIAL 'E' (stripChars f) =
      some (.ok t) ∨
    tryApplication (parseFuel sig n) sig .PREDICATE (stripChars f) =
      some (.ok t) ∨
    tryApplication (parseFuel sig n) sig .FUNCTOR (stripChars f) =
      some (.ok t) ∨
    tryConstant sig (stripChars f) = some (.ok t) ∨
    tryVariable sig (stripChars f) = some (.ok t) ∨
    tryBracket (parseFuel sig n) sig (stripChars f) = some (.ok t) := by
  simp only [parseFuel] at h
  by_cases he : stripChars f = []
  · rw [if_pos he] at h
    simp at h
  · rw [if_neg he] at h
    cases h1 : tryJunctor (parseFuel sig n) sig .IMPLICATION implSym
        (stripChars f) with
    | some r =>
      rw [h1] at h
      have hr : r = .ok t := h
      exact Or.inl (by rw [hr])
    | none =>
    rw [h1] at h
    cases h2 : tryJunctor (parseFuel sig n) sig .DISJUNCTION disjSym
        (stripChars f) with
    | some r =>
      rw [h2] at h
      have hr : r = .ok t := h
      exact Or.inr (Or.inl (by rw [hr]))
    | none =>
    rw [h2] at h
    cases h3 : tryJunctor (parseFuel sig n) sig .CONJUNCTION conjSym
        (stripChars f) with
    | some r =>
      rw [h3] at h
      have hr : r = .ok t := h
      exact Or.inr (Or.inr (Or.inl (by rw [hr])))
    | none =>
    rw [h3] at h
    cases h4 : tryNegation (parseFuel sig n) sig (stripChars f) with
    | some r =>
      rw [h4] at h
      have hr : r = .ok t := h
      exact Or.inr (Or.inr (Or.inr (Or.inl (by rw [hr]))))
    | none =>
    rw [h4] at h
    cases h5 : tryQuantifier (parseFuel sig n) sig .UNIVERSAL 'A'
        (stripChars f) with
    | some r =>
      rw [h5] at h
      have hr : r = .ok t := h
      exact Or.inr (Or.inr (Or.inr (Or.inr (Or.inl (by rw [hr])))))
    | none =>
    rw [h5] at h
    cases h6 : tryQuantifier (parseFuel sig n) sig .EXISTENTIAL 'E'
        (stripChars f) with
    | some r =>
      rw [h6] at h
      have hr : r = .ok t := h
      exact Or.inr (Or.inr (Or.inr (Or.inr (Or.inr (Or.inl (by rw [hr]))))))
    | none =>
    rw [h6] at h
    cases h7 : tryApplication (parseFuel sig n) sig .PREDICATE
        (stripChars f) with
    | some r =>
      rw [h7] at h
      have hr : r = .ok t := h
      exact Or.inr (Or.inr (Or.inr (Or.inr (Or.inr (Or.inr (Or.inl (by rw [hr])))))))
    | none =>
    rw [h7] at h
    cases h8 : tryApplication (parseFuel sig n) sig .FUNCTOR
        (stripChars f) with
    | some r =>
      rw [h8] at h
      have hr : r = .ok t := h
      exact Or.inr (Or.inr (Or.inr (Or.inr (Or.inr (Or.inr (Or.inr
        (Or.inl (by rw [hr]))))))))
    | none =>
    rw [h8] at h
    cases h9 : tryConstant sig (stripChars f) with
    | some r =>
      rw [h9] at h
      have hr : r = .ok t := h
      exact Or.inr (Or.inr (Or.inr (Or.inr (Or.inr (Or.inr (Or.inr (Or.inr
        (Or.inl (by rw [hr])))))))))
    | none =>
    rw [h9] at h
    cases h10 : tryVariable sig (stripChars f) with
    | some r =>
      rw [h10] at h
      have hr : r = .ok t := h
      exact Or.inr (Or.inr (Or.inr (Or.inr (Or.inr (Or.inr (Or.inr (Or.inr
        (Or.inr (Or.inl (by rw [hr]))))))))))
    | none =>
    rw [h10] at h
    cases h11 : tryBracket (parseFuel sig n) sig (stripChars f) with
    | some r =>
      rw [h11] at h
      have hr : r = .ok t := h
      exact Or.inr (Or.inr (Or.inr (Or.inr (Or.inr (Or.inr (Or.inr (Or.inr
        (Or.inr (Or.inr (by rw [hr]))))))))))
    | none =>
    rw [h11] at h
    simp at h

/-- Over a signature where the name P is alphanumeric and declared only
with arity zero (as predicate or functor, not as a constant), no
successfully parsed tree mentions P anywhere: every node kind writes into
its value slot either a grammar symbol, a checked variable or domain token
(never a signature symbol), a declared constant, or an applied symbol whose
declared arity equals its nonzero argument count. -/
theorem parseFuel_ok_not_mentions (sig : Signature) (P : List Char)
    (hne : P ≠ []) (hall : ∀ c ∈ P, c.isAlphanum = true)
    (hmem : sig.mem P = true) (hnc : P ∉ sig.constants)
    (hpred : ∀ a, dictLookup sig.predicates P = some a → a = 0)
    (hfn : ∀ a, dictLookup sig.functors P = some a → a = 0) :
    ∀ n f t, parseFuel sig n f = .ok t → ParseTree.mentions P t = false := by
  intro n
  induction n with
  | zero =>
    intro f t h
    exact absurd h (by simp [parseFuel])
  | succ n ih =>
    intro f t h
    rcases parseFuel_ok_cases sig n f t h with
      h1 | h1 | h1 | h1 | h1 | h1 | h1 | h1 | h1 | h1 | h1
    · obtain ⟨pos, l, r, hl, hr, ht⟩ := tryJunctor_ok_inv h1
      subst ht
      simp only [ParseTree.mentions, ParseTreeList.mentionsList, valMentions]
      rw [ih _ _ hl, ih _ _ hr,
        decide_eq_false
          (@ne_of_not_alnum_mem P implSym '-' hall (by decide) (by decide))]
      rfl
    · obtain ⟨pos, l, r, hl, hr, ht⟩ := tryJunctor_ok_inv h1
      subst ht
      simp only [ParseTree.mentions, ParseTreeList.mentionsList, valMentions]
      rw [ih _ _ hl, ih _ _ hr,
        decide_eq_false
          (@ne_of_not_alnum_mem P disjSym ';' hall (by decide) (by decide))]
      rfl
    · obtain ⟨pos, l, r, hl, hr, ht⟩ := tryJunctor_ok_inv h1
      subst ht
      simp only [ParseTree.mentions, ParseTreeList.mentionsList, valMentions]
      rw [ih _ _ hl, ih _ _ hr,
        decide_eq_false
          (@ne_of_not_alnum_mem P conjSym ',' hall (by decide) (by decide))]
      rfl
    · obtain ⟨c, hc, ht⟩ := tryNegation_ok_inv h1
      subst ht
      simp only [ParseTree.mentions, ParseTreeList.mentionsList, valMentions]
      rw [ih _ _ hc,
        decide_eq_false
          (@ne_of_not_alnum_mem P negSym '!' hall (by decide) (by decide))]
      rfl
    · obtain ⟨varEnd, domainEnd, c, hv, hd, hc, ht⟩ := tryQuantifier_ok_inv h1
      subst ht
      simp only [ParseTree.mentions, ParseTreeList.mentionsList, valMentions]
      rw [ih _ _ hc,
        decide_eq_false (varSyntaxCheck_ne hmem hv),
        decide_eq_false (varSyntaxCheck_ne hmem hd)]
      rfl
    · obtain ⟨varEnd, domainEnd, c, hv, hd, hc, ht⟩ := tryQuantifier_ok_inv h1
      subst ht
      simp only [ParseTree.mentions, ParseTreeList.mentionsList, valMentions]
      rw [ih _ _ hc,
        decide_eq_false (varSyntaxCheck_ne hmem hv),
        decide_eq_false (varSyntaxCheck_ne hmem hd)]
      rfl
    · obtain ⟨ri, arity, children, hfc, hlk, hlen, hpt, ht⟩ :=
        tryApplication_pred_ok_inv h1
      subst ht
      simp only [ParseTree.mentions, valMentions]
      have hsym : (stripChars f).take ri ≠ P := by
        intro he
        rw [he] at hlk
        have h0 := hpred arity hlk
        have hpos := splitAtLevel_length_pos
          (((stripChars f).drop (ri + 1)).dropLast) conjSym
        omega
      have hch : ∀ c ∈ children, ParseTree.mentions P c = false := by
        intro c hcm
        obtain ⟨a, ha, hpa⟩ := parseTerms_ok_mem hpt c hcm
        exact ih a c hpa
      rw [decide_eq_false hsym, mentionsList_ofList_false hch]
      rfl
    · obtain ⟨ri, arity, children, hfc, hlk, hlen, hpt, ht⟩ :=
        tryApplication_fun_ok_inv h1
      subst ht
      simp only [ParseTree.mentions, valMentions]
      have hsym : (stripChars f).take ri ≠ P := by
        intro he
        rw [he] at hlk
        have h0 := hfn arity hlk
        have hpos := splitAtLevel_length_pos
          (((stripChars f).drop (ri + 1)).dropLast) conjSym
        omega
      have hch : ∀ c ∈ children, ParseTree.mentions P c = false := by
        intro c hcm
        obtain ⟨a, ha, hpa⟩ := parseTerms_ok_mem hpt c hcm
        exact ih a c hpa
      rw [decide_eq_false hsym, mentionsList_ofList_false hch]
      rfl
    · obtain ⟨hcm, ht⟩ := tryConstant_ok_inv h1
      subst ht
      simp only [ParseTree.mentions, ParseTreeList.mentionsList, valMentions]
      have hns : stripChars f ≠ P := by
        intro he
        rw [he] at hcm
        exact hnc hcm
      rw [decide_eq_false hns]
      rfl
    · obtain ⟨hv, ht⟩ := tryVariable_ok_inv h1
      subst ht
      simp only [ParseTree.mentions, ParseTreeList.mentionsList, valMentions]
      rw [decide_eq_false (varSyntaxCheck_ne hmem hv)]
      rfl
    · obtain ⟨c, hc, ht⟩ := tryBracket_ok_inv h1
      subst ht
      simp only [ParseTree.mentions, ParseTreeList.mentionsList, valMentions]
      rw [ih _ _ hc,
        decide_eq_false
          (@ne_of_not_alnum_mem P (['(', ')']) '(' hall (by decide)
            (by decide))]
      rfl

/-- Fixture signature for the zero-arity claim: predicate P of arity 0,
functor g of arity 0, constant a. -/
def sigZero : Signature :=
  ⟨[("P".toList, 0)], [("g".toList, 0)], ["a".toList]⟩

/-- C10: a declared symbol P of arity zero can never be used. Applying it
to an argument text, P(args), fails to parse whenever no junctor symbol
occurs at top level: the top-level comma split of the argument text always
yields at least one argument, never zero, so the arity check raises (in
particular P() fails, the empty argument text splitting into one empty
argument). The bare token P also fails: it is neither a declared constant
nor a valid variable, since it collides with the signature. And no
successfully parsed tree mentions P anywhere. -/
theorem parse_zero_arity_unusable (sig : Signature) (P : List Char)
    (hne : P ≠ []) (hall : ∀ c ∈ P, c.isAlphanum = true)
    (hmem : sig.mem P = true) (hnc : P ∉ sig.constants)
    (hpred : ∀ a, dictLookup sig.predicates P = some a → a = 0)
    (hfn : ∀ a, dictLookup sig.functors P = some a → a = 0) :
    (∀ argsText n,
        findTopLevel (P ++ '(' :: (argsText ++ [')'])) implSym = none →
        findTopLevel (P ++ '(' :: (argsText ++ [')'])) disjSym = none →
        findTopLevel (P ++ '(' :: (argsText ++ [')'])) conjSym = none →
        (dictLookup sig.predicates P = some 0 ∨
          (dictLookup sig.predicates P = none ∧
            dictLookup sig.functors P = some 0)) →
        ∃ e, parseFuel sig (n + 1) (P ++ '(' :: (argsText ++ [')'])) =
          .error e) ∧
    (∀ n, ∃ e, parseFuel sig (n + 1) P = .error e) ∧
    (∀ n f t, parseFuel sig n f = .ok t →
      ParseTree.mentions P t = false) := by
  refine ⟨fun argsText n hI hD hC hdecl => ?_, fun n => ?_,
    parseFuel_ok_not_mentions sig P hne hall hmem hnc hpred hfn⟩
  · refine parseFuel_application_arity_error sig n P argsText hne hall
      hI hD hC ?_
    have hpos := splitAtLevel_length_pos argsText conjSym
    rcases hdecl with h0 | ⟨h0, h1⟩
    · exact Or.inl ⟨0, h0, by omega⟩
    · exact Or.inr ⟨h0, 0, h1, by omega⟩
  · have hp := parseFuel_alnum_token sig n P hne hall
    have hcn : tryConstant sig P = none := by
      simp [tryConstant, hnc]
    have hvv : varSyntaxCheck P sig = false := by
      simp [varSyntaxCheck, hmem]
    have hvn : tryVariable sig P = none := by
      simp [tryVariable, hvv]
    rw [hcn, hvn] at hp
    exact ⟨_, hp⟩

/-- Witness for C10 over sigZero, at the zero-arity predicate P: the
application text P() fails at fuel 4, the bare token P fails at fuel 1, and
the successfully parsed variable token x yields a tree that does not
mention P. -/
theorem parse_zero_arity_unusable_witness :
    (∃ e, parseFuel sigZero (3 + 1)
      ("P".toList ++ '(' :: ([] ++ [')'])) = .error e) ∧
    (∃ e, parseFuel sigZero (0 + 1) "P".toList = .error e) ∧
    ParseTree.mentions "P".toList
      (.mk (.sym "x".toList) .VARIABLE .nil sigZero) = false :=
  ⟨(parse_zero_arity_unusable sigZero "P".toList (by decide) (by decide)
      (by decide) (by decide)
      (fun a h =>
        (Option.some.inj (show (some 0 : Option Nat) = some a from h)).symm)
      (fun a h =>
        Option.noConfusion (show (none : Option Nat) = some a from h))).1
      [] 3 (by decide) (by decide) (by decide) (Or.inl (by decide)),
   (parse_zero_arity_unusable sigZero "P".toList (by decide) (by decide)
      (by decide) (by decide)
      (fun a h =>
        (Option.some.inj (show (some 0 : Option Nat) = some a from h)).symm)
      (fun a h =>
        Option.noConfusion (show (none : Option Nat) = some a from h))).2.1 0,
   (parse_zero_arity_unusable sigZero "P".toList (by decide) (by decide)
      (by decide) (by decide)
      (fun a h =>
        (Option.some.inj (show (some 0 : Option Nat) = some a from h)).symm)
      (fun a h =>
        Option.noConfusion (show (none : Option Nat) = some a from h))).2.2
      1 "x".toList (.mk (.sym "x".toList) .VARIABLE .nil sigZero) (by rfl)⟩

end FTL
